import Mathlib

/-!
Verification of the PodInsights multi-platform scheduling queue
(`src/database.py` and the scheduled-post worker of `src/podinsights_web.py`).

Modelling conventions, fixed throughout:

* A naive local datetime (Python `datetime`, the TEXT ISO strings stored in
  the `scheduled_posts.scheduled_for` column) is encoded as a `Nat`: whole
  seconds since the Unix epoch, local clock.  ISO-8601 strings of the form
  `YYYY-MM-DDTHH:MM:SS` compare lexicographically exactly as their encoded
  datetimes compare numerically, `date(t)` is `t / 86400`, and Python's
  `weekday()` (Monday = 0) of day `d` is `(d + 3) % 7` because day 0
  (1970-01-01) was a Thursday.  `datetime.now()` is modelled by the store
  field `now`; the code compares a second-precision candidate against a
  microsecond-precision `now` with `candidate <= now`, which agrees with
  comparing against `⌊now⌋`, so a whole-second `now` is exact.
* The sqlite tables `scheduled_posts`, `schedule_time_slots` and
  `platform_daily_limits` are the lists `posts`, `slots`, `limits` of a
  `Store`.  SQL `ORDER BY` on a TEXT column is byte order, which for the
  ASCII strings involved is exactly `String`'s lexicographic order.
  Row order inside the lists models sqlite's rowid scan order, so a stable
  insertion sort models an `ORDER BY` with its residual tie order.
* Status strings 'pending' / 'posted' / 'failed' / 'cancelled' become the
  enumeration `Status`.
* A Python function that can raise an uncaught exception is returned as
  `Except Unit _`; `Except.error ()` is the uncaught exception.
-/

namespace PodInsights

/-- Status column of a `scheduled_posts` row. -/
inductive Status where
  | pending
  | posted
  | failed
  | cancelled
  deriving DecidableEq, Repr

/-- One `scheduled_posts` row (the columns the scheduling queue reads:
`id`, `platform`, `scheduled_for`, `status`, `created_at`, `error_message`;
the content references, `linkedin_post_urn` and `posted_at` are never read
by the operations under verification and are omitted). -/
structure Post where
  id : Nat
  platform : String
  scheduled_for : Nat
  status : Status
  created_at : Nat
  error_message : Option String
  deriving DecidableEq, Repr

/-- One `schedule_time_slots` row: `day_of_week` is `-1` (every day) or
`0..6` (Monday..Sunday), `time_slot` is free text intended to be `HH:MM`. -/
structure TimeSlot where
  slotId : Nat
  day_of_week : Int
  time_slot : String
  enabled : Bool
  deriving DecidableEq, Repr

/-- The database plus the local wall clock (`datetime.now()`, whole
seconds): the whole mutable state the scheduling queue touches. -/
structure Store where
  posts : List Post
  slots : List TimeSlot
  limits : List (String × Nat)
  now : Nat
  deriving DecidableEq, Repr

/-- Encoding of the far-future sentinel `'9999-12-31T23:59:59'` used by
`redistribute_scheduled_posts` (seconds since epoch). -/
def farFuture : Nat := 253402300799

instance {ε α : Type} [DecidableEq ε] [DecidableEq α] : DecidableEq (Except ε α) :=
  fun x y =>
    match x, y with
    | .error a, .error b =>
      if h : a = b then isTrue (by rw [h]) else
        isFalse (by intro hc; cases hc; exact h rfl)
    | .error _, .ok _ => isFalse (by intro hc; cases hc)
    | .ok _, .error _ => isFalse (by intro hc; cases hc)
    | .ok a, .ok b =>
      if h : a = b then isTrue (by rw [h]) else
        isFalse (by intro hc; cases hc; exact h rfl)

/-- Python `int(str)`: an optional sign followed by at least one digit.
(Whitespace/underscore forms accepted by CPython are not relevant to any
claim and are treated as non-numeric.) -/
def parseDigitsAux : List Char → Nat → Option Nat
  | [], acc => some acc
  | c :: cs, acc =>
    if c.isDigit then parseDigitsAux cs (acc * 10 + (c.toNat - 48)) else none

/-- Parse a nonempty digit character list (optionally signed) as an
integer. -/
def parseIntChars : List Char → Option Int
  | [] => none
  | '-' :: cs =>
    match cs with
    | [] => none
    | _ => (parseDigitsAux cs 0).map (fun n => -(n : Int))
  | '+' :: cs =>
    match cs with
    | [] => none
    | _ => (parseDigitsAux cs 0).map (fun n => (n : Int))
  | cs => (parseDigitsAux cs 0).map (fun n => (n : Int))

/-- Parse a nonempty digit string (optionally signed) as an integer. -/
def parseInt (s : String) : Option Int := parseIntChars s.data

/-- Python `str.split(':')` on the underlying character list: splits at
every colon, keeping empty segments. -/
def splitOnColonAux : List Char → List Char → List (List Char)
  | [], acc => [acc.reverse]
  | c :: cs, acc =>
    if c = ':' then acc.reverse :: splitOnColonAux cs []
    else splitOnColonAux cs (c :: acc)

/-- Model of `hour, minute = map(int, slot['time_slot'].split(':'))`
inside `get_next_available_slot`: succeeds exactly when the string splits
on `':'` into exactly two integer literals (otherwise the `ValueError` /
`AttributeError` is caught and the slot is skipped). -/
def parseTimeSlot (s : String) : Option (Int × Int) :=
  match splitOnColonAux s.data [] with
  | [h, m] =>
    match parseIntChars h, parseIntChars m with
    | some a, some b => some (a, b)
    | _, _ => none
  | _ => none

/-- The SQL sort key `ORDER BY day_of_week ASC, time_slot ASC` of
`get_enabled_time_slots` / `list_time_slots`. -/
def slotKeyLE (a b : TimeSlot) : Prop :=
  a.day_of_week < b.day_of_week ∨
    (a.day_of_week = b.day_of_week ∧ a.time_slot ≤ b.time_slot)

instance : DecidableRel slotKeyLE := fun a b =>
  have : Decidable (a.time_slot ≤ b.time_slot) :=
    decidable_of_iff (a.time_slot.toList ≤ b.time_slot.toList)
      String.le_iff_toList_le.symm
  decidable_of_iff
    (a.day_of_week < b.day_of_week ∨
      (a.day_of_week = b.day_of_week ∧ a.time_slot ≤ b.time_slot)) Iff.rfl

instance : IsTotal TimeSlot slotKeyLE where
  total a b := by
    rcases lt_trichotomy a.day_of_week b.day_of_week with h | h | h
    · exact Or.inl (Or.inl h)
    · rcases le_total a.time_slot b.time_slot with h2 | h2
      · exact Or.inl (Or.inr ⟨h, h2⟩)
      · exact Or.inr (Or.inr ⟨h.symm, h2⟩)
    · exact Or.inr (Or.inl h)

instance : IsTrans TimeSlot slotKeyLE where
  trans a b c hab hbc := by
    rcases hab with h1 | ⟨h1, h1'⟩
    · rcases hbc with h2 | ⟨h2, _⟩
      · exact Or.inl (h1.trans h2)
      · exact Or.inl (h2 ▸ h1)
    · rcases hbc with h2 | ⟨h2, h2'⟩
      · exact Or.inl (h1 ▸ h2)
      · exact Or.inr ⟨h1.trans h2, h1'.trans h2'⟩

/-- Translation of `get_enabled_time_slots`: the enabled rows of
`schedule_time_slots`, `ORDER BY day_of_week ASC, time_slot ASC`. -/
def get_enabled_time_slots (s : Store) : List TimeSlot :=
  List.insertionSort slotKeyLE (s.slots.filter (fun sl => sl.enabled))

/-- Translation of `get_daily_limit`: the `max_posts_per_day` row for the
platform, `0` (unlimited) when absent. -/
def get_daily_limit (s : Store) (p : String) : Nat :=
  match s.limits.find? (fun r => r.1 == p) with
  | some r => r.2
  | none => 0

/-- The conflict set read at the top of `get_next_available_slot`:
`SELECT scheduled_for FROM scheduled_posts WHERE status='pending' AND
platform=?` (as a list; only membership is used). -/
def pendingTimes (p : String) (s : Store) : List Nat :=
  (s.posts.filter (fun r => decide (r.status = Status.pending ∧ r.platform = p))).map
    (fun r => r.scheduled_for)

/-- Translation of `count_scheduled_posts_for_day`: pending rows of the
platform whose `date(scheduled_for)` is the given day. -/
def count_scheduled_posts_for_day (p : String) (d : Nat) (s : Store) : Nat :=
  (s.posts.filter (fun r =>
    decide (r.platform = p ∧ r.status = Status.pending ∧ r.scheduled_for / 86400 = d))).length

/-- The candidate datetime `check_date.replace(hour=h, minute=m, second=0,
microsecond=0)` built by `get_next_available_slot` (well-defined when
`0 ≤ h < 24` and `0 ≤ m < 60`). -/
def slotCandidate (date : Nat) (h m : Int) : Nat :=
  date * 86400 + h.toNat * 3600 + m.toNat * 60

/-- Inner loop of `get_next_available_slot` over the ordered enabled slots
of one day: skip slots for another weekday, skip slots whose time string
does not parse (`except (ValueError, AttributeError): continue`), raise
(`Except.error`) when `datetime.replace` is given an out-of-range hour or
minute (that `ValueError` is outside the `try`), skip candidates not
strictly in the future and candidates already in the platform's pending
conflict set, and return the first surviving candidate. -/
def scanSlots (s : Store) (p : String) (date dow : Nat) :
    List TimeSlot → Except Unit (Option Nat)
  | [] => Except.ok none
  | sl :: rest =>
    if sl.day_of_week ≠ -1 ∧ sl.day_of_week ≠ (dow : Int) then
      scanSlots s p date dow rest
    else
      (parseTimeSlot sl.time_slot).elim (scanSlots s p date dow rest) (fun hm =>
        if hm.1 < 0 ∨ 24 ≤ hm.1 ∨ hm.2 < 0 ∨ 60 ≤ hm.2 then Except.error ()
        else
          let c := slotCandidate date hm.1 hm.2
          if c ≤ s.now then scanSlots s p date dow rest
          else if c ∈ pendingTimes p s then scanSlots s p date dow rest
          else Except.ok (some c))

/-- Outer loop of `get_next_available_slot` over `day_offset in range(30)`.
The source keeps a per-call `daily_counts_cache`; because the thirty
offsets give thirty distinct calendar dates, each date's cache entry is
written once — with exactly `count_scheduled_posts_for_day` — before it is
read, and the increment performed on success is immediately followed by
`return`, so within one call the cache is observationally the direct
count, which is what is inlined here. -/
def scanDays (s : Store) (p : String) (lim : Nat) : List Nat → Except Unit (Option Nat)
  | [] => Except.ok none
  | off :: rest =>
    let date := (s.now + off * 86400) / 86400
    if 0 < lim ∧ lim ≤ count_scheduled_posts_for_day p date s then
      scanDays s p lim rest
    else
      (scanSlots s p date ((date + 3) % 7) (get_enabled_time_slots s)).bind
        (fun r => r.elim (scanDays s p lim rest) (fun c => Except.ok (some c)))

/-- Translation of `get_next_available_slot(platform)`: `None` when no
enabled slots are configured, otherwise the 30-day scan. -/
def get_next_available_slot (p : String) (s : Store) : Except Unit (Option Nat) :=
  if (get_enabled_time_slots s).isEmpty then Except.ok none
  else scanDays s p (get_daily_limit s p) (List.range 30)

/-- Translation of `update_scheduled_post_time`: `UPDATE scheduled_posts
SET scheduled_for=? WHERE id=? AND status='pending'`; the boolean is
`cur.rowcount > 0`. -/
def update_scheduled_post_time (id t : Nat) (s : Store) : Store × Bool :=
  ({ s with posts := s.posts.map (fun r =>
      if r.id = id ∧ r.status = Status.pending then { r with scheduled_for := t } else r) },
    s.posts.any (fun r => decide (r.id = id ∧ r.status = Status.pending)))

/-- Phase one of `redistribute_scheduled_posts`: `UPDATE scheduled_posts
SET scheduled_for='9999-12-31T23:59:59' WHERE platform=? AND
status='pending'`. -/
def setPendingToSentinel (p : String) (s : Store) : Store :=
  { s with posts := s.posts.map (fun r =>
      if r.platform = p ∧ r.status = Status.pending then { r with scheduled_for := farFuture } else r) }

/-- Sort key of `ORDER BY created_at ASC` (ties keep scan order: stable sort). -/
def createdLE (a b : Post) : Prop := a.created_at ≤ b.created_at

instance : DecidableRel createdLE := fun a b =>
  decidable_of_iff (a.created_at ≤ b.created_at) Iff.rfl

instance : IsTotal Post createdLE := ⟨fun a b => Nat.le_total a.created_at b.created_at⟩

instance : IsTrans Post createdLE := ⟨fun _ _ _ h1 h2 => Nat.le_trans h1 h2⟩

/-- Sort key of `ORDER BY scheduled_for ASC` (ties keep scan order). -/
def schedLE (a b : Post) : Prop := a.scheduled_for ≤ b.scheduled_for

instance : DecidableRel schedLE := fun a b =>
  decidable_of_iff (a.scheduled_for ≤ b.scheduled_for) Iff.rfl

instance : IsTotal Post schedLE := ⟨fun a b => Nat.le_total a.scheduled_for b.scheduled_for⟩

instance : IsTrans Post schedLE := ⟨fun _ _ _ h1 h2 => Nat.le_trans h1 h2⟩

/-- Reassignment loop of `redistribute_scheduled_posts`: for each pending
id in FIFO order ask `get_next_available_slot`; on a slot, persist it with
`update_scheduled_post_time` and count it, on `None` leave the row at the
sentinel and continue. -/
def redistLoop (p : String) : List Nat → Nat → Store → Except Unit (Nat × Store)
  | [], acc, s => Except.ok (acc, s)
  | id :: rest, acc, s =>
    (get_next_available_slot p s).bind (fun r =>
      r.elim (redistLoop p rest acc s)
        (fun t => redistLoop p rest (acc + 1) (update_scheduled_post_time id t s).1))

/-- Translation of `redistribute_scheduled_posts(platform)`. -/
def redistribute_scheduled_posts (p : String) (s : Store) : Except Unit (Nat × Store) :=
  let pendingIds :=
    (List.insertionSort createdLE
      (s.posts.filter (fun r => decide (r.platform = p ∧ r.status = Status.pending)))).map
      (fun r => r.id)
  if pendingIds.isEmpty then Except.ok (0, s)
  else redistLoop p pendingIds 0 (setPendingToSentinel p s)

/-- Shared assignment loop of `reorder_scheduled_posts` and
`move_posts_to_position`: `for i, post_id in enumerate(ids): if i <
len(times): UPDATE ... SET scheduled_for=times[i] WHERE id=post_id AND
status='pending'` — i.e. update along the zip of the two lists. -/
def assignTimes : List Nat → List Nat → Store → Store
  | _, [], s => s
  | [], _, s => s
  | id :: ids, t :: ts, s => assignTimes ids ts (update_scheduled_post_time id t s).1

/-- Translation of `reorder_scheduled_posts(post_ids)`.  The source
fetches the pending rows of the given ids (`ORDER BY scheduled_for`) and
then `sorted(...)`s their times; only that sorted list of times is used,
which is what is kept here. -/
def reorder_scheduled_posts (ids : List Nat) (s : Store) : Store × Bool :=
  if ids.length < 2 then (s, true)
  else
    let rows := s.posts.filter (fun r => decide (r.id ∈ ids ∧ r.status = Status.pending))
    if rows.length < 2 then (s, true)
    else
      let times := List.insertionSort (· ≤ ·) (rows.map (fun r => r.scheduled_for))
      (assignTimes ids times s, true)

/-- Translation of `move_posts_to_position(post_ids, position)`: operates
on all pending rows of every platform, `ORDER BY scheduled_for ASC`. -/
def move_posts_to_position (ids : List Nat) (position : String) (s : Store) : Store × Bool :=
  if ids.isEmpty then (s, true)
  else
    let all_posts := List.insertionSort schedLE (s.posts.filter (fun r => decide (r.status = Status.pending)))
    if all_posts.length < 2 then (s, true)
    else
      let selected := all_posts.filter (fun r => decide (r.id ∈ ids))
      let other := all_posts.filter (fun r => decide (r.id ∉ ids))
      if selected.isEmpty then (s, true)
      else
        let all_times := List.insertionSort (· ≤ ·) (all_posts.map (fun r => r.scheduled_for))
        let new_order := if position = "top" then selected ++ other else other ++ selected
        (assignTimes (new_order.map (fun r => r.id)) all_times s, true)

/-- Translation of `add_scheduled_post` as used by the queue-based
enqueue path (`/schedule/add` with `use_queue`): a fresh row with status
'pending' is inserted with the timestamp the allocator returned. -/
def add_scheduled_post (s : Store) (id : Nat) (p : String) (t : Nat) (created : Nat) : Store :=
  { s with posts := s.posts ++
      [{ id := id, platform := p, scheduled_for := t, status := Status.pending,
         created_at := created, error_message := none }] }

/-- Translation of `update_scheduled_post_status` (the columns the claims
read: status and error_message; `posted_at` / `linkedin_post_urn` are
write-only for the properties considered). The source has no status guard:
every row with the id is overwritten. -/
def update_scheduled_post_status (id : Nat) (st : Status) (err : Option String) (s : Store) : Store :=
  { s with posts := s.posts.map (fun r =>
      if r.id = id then { r with status := st, error_message := err } else r) }

/-- Translation of `get_pending_scheduled_posts`: pending rows with
`scheduled_for <= now`, `ORDER BY scheduled_for ASC` (the joined content
columns are externalized into the worker's outcome oracle). -/
def get_pending_scheduled_posts (s : Store) : List Post :=
  List.insertionSort schedLE
    (s.posts.filter (fun r => decide (r.status = Status.pending ∧ r.scheduled_for ≤ s.now)))

/-- Result of one due row's external interaction inside
`scheduled_post_worker` (content resolution, token handling and the
platform publish call are external collaborators, spec section 6):
`success` is `result['success']` true, `failure err` is a returned
unsuccessful result (worker stores `str(result.get('error',...))[:500]`),
`raised err` is an exception from the row's body (caught by the per-row
`except Exception`, worker stores `str(e)[:500]`). -/
inductive PubOutcome where
  | success (handle : String)
  | failure (err : String)
  | raised (err : String)

/-- Python `s[:500]`. -/
def truncate500 (e : String) : String := String.mk (e.data.take 500)

/-- Body of the worker's `for post in pending` loop for one row, with the
external interaction abstracted by the oracle. -/
def processDuePost (oracle : Nat → PubOutcome) (s : Store) (id : Nat) : Store :=
  match oracle id with
  | PubOutcome.success _ => update_scheduled_post_status id Status.posted none s
  | PubOutcome.failure e => update_scheduled_post_status id Status.failed (some (truncate500 e)) s
  | PubOutcome.raised e => update_scheduled_post_status id Status.failed (some (truncate500 e)) s

/-- One tick of `scheduled_post_worker`: fetch the due rows once, then
process them sequentially; each row's body is wrapped in its own
`try/except`, so every row is processed whatever happened to earlier
rows. -/
def scheduled_post_worker_tick (oracle : Nat → PubOutcome) (s : Store) : Store :=
  ((get_pending_scheduled_posts s).map (fun r => r.id)).foldl (processDuePost oracle) s

/-- Well-formedness of one slot row: when the time string parses, the
parsed hour and minute are in range for `datetime.replace` (the web layer
`/schedule/slots/add` validates exactly this before insertion). -/
def slotInRangeB (sl : TimeSlot) : Bool :=
  match parseTimeSlot sl.time_slot with
  | some (h, m) => decide (0 ≤ h ∧ h < 24 ∧ 0 ≤ m ∧ m < 60)
  | none => true

/-- Range well-formedness of every enabled slot of the store. -/
def WFslots (s : Store) : Prop :=
  ∀ sl ∈ get_enabled_time_slots s, slotInRangeB sl = true

instance : DecidablePred WFslots := fun s =>
  List.decidableBAll (fun sl => slotInRangeB sl = true) (get_enabled_time_slots s)

/-- Candidate timestamp contributed by one enabled slot on a given day of
the scan, following the claim's wording: the slot applies to the day (its
`day_of_week` is `ALL_DAYS` or the day's weekday) and its time string
parses. -/
def slotCandidateOf (date dow : Nat) (sl : TimeSlot) : Option Nat :=
  if sl.day_of_week = -1 ∨ sl.day_of_week = (dow : Int) then
    (parseTimeSlot sl.time_slot).map (fun hm => slotCandidate date hm.1 hm.2)
  else none

/-- Candidates of one day, visiting the enabled slots in registry order
(day-of-week then time ascending). -/
def dayCandidates (s : Store) (date dow : Nat) : List Nat :=
  (get_enabled_time_slots s).filterMap (slotCandidateOf date dow)

/-- Written from the claim: the legal candidates of the thirty-day
lookahead in scan order — days from today outward, slots of each day in
registry order, keeping candidates strictly after now, not in the
platform's pending conflict set, and lying on a day whose committed count
is below the daily limit (when a limit is set). -/
def legalCandidates (p : String) (s : Store) : List Nat :=
  (List.range 30).flatMap (fun off =>
    let date := s.now / 86400 + off
    (dayCandidates s date ((date + 3) % 7)).filter (fun c =>
      decide (s.now < c ∧ c ∉ pendingTimes p s ∧
        (0 < get_daily_limit s p →
          count_scheduled_posts_for_day p (c / 86400) s < get_daily_limit s p))))

/-- Day-candidate list of one scan day, with the claim's per-candidate
legality filter (future, conflict-free, day under the daily limit). -/
def dayLegal (p : String) (s : Store) (lim off : Nat) : List Nat :=
  (dayCandidates s (s.now / 86400 + off) ((s.now / 86400 + off + 3) % 7)).filter (fun c =>
    decide (s.now < c ∧ c ∉ pendingTimes p s ∧
      (0 < lim → count_scheduled_posts_for_day p (c / 86400) s < lim)))

/-- Predicate: the slot's time string parses as two integers. -/
def parseableB (sl : TimeSlot) : Bool := (parseTimeSlot sl.time_slot).isSome

/-- Primary-key integrity of `scheduled_posts.id` (sqlite enforces it). -/
def IdsNodup (s : Store) : Prop := (s.posts.map (fun r => r.id)).Nodup

instance : DecidablePred IdsNodup := fun s => by
  unfold IdsNodup; infer_instance

/-- The id belongs to a currently pending row. -/
def isPendingId (s : Store) (id : Nat) : Prop :=
  ∃ r ∈ s.posts, r.id = id ∧ r.status = Status.pending

instance (s : Store) : DecidablePred (isPendingId s) := fun id => by
  unfold isPendingId; infer_instance

/-- Every pending row of the store belongs to this platform. -/
def SinglePlatform (p : String) (s : Store) : Prop :=
  ∀ r ∈ s.posts, r.status = Status.pending → r.platform = p

instance (p : String) : DecidablePred (SinglePlatform p) := fun s => by
  unfold SinglePlatform; infer_instance

/-- Per-platform pending-timestamp uniqueness, except that several rows may
sit at the redistribution sentinel. -/
def UniqES (p : String) (s : Store) : Prop :=
  ∀ t ∈ pendingTimes p s, t ≠ farFuture → (pendingTimes p s).count t ≤ 1

instance (p : String) : DecidablePred (UniqES p) := fun s =>
  List.decidableBAll (fun t => t ≠ farFuture → (pendingTimes p s).count t ≤ 1)
    (pendingTimes p s)

/-- Final value of one row after the sequential update loop `assignTimes`:
the zip partner of the row's id, applied only to pending rows. -/
def reassign (ids times : List Nat) (r : Post) : Post :=
  ((ids.zip times).find? (fun q => q.1 == r.id)).elim r (fun q =>
    if r.status = Status.pending then { r with scheduled_for := q.2 } else r)

/-- Timestamp the assignment loop hands to a given id: the second
component of the id's first pair in the zip of ids and times. -/
def partnerVal (ids times : List Nat) (id : Nat) : Nat :=
  (((ids.zip times).find? (fun q => q.1 == id)).map (fun q => q.2)).getD 0

/-- All-platform pending timestamps of the store. -/
def allPendingTimes (s : Store) : List Nat :=
  (s.posts.filter (fun r => decide (r.status = Status.pending))).map (fun r => r.scheduled_for)

/-- Timestamps of the rows a reorder call selects: the store's pending
rows whose id is in the given list (the `SELECT scheduled_for ... WHERE id
IN ... AND status = 'pending'` of `reorder_scheduled_posts`). -/
def selTimes (ids : List Nat) (s : Store) : List Nat :=
  (s.posts.filter (fun r => decide (r.id ∈ ids ∧ r.status = Status.pending))).map
    (fun r => r.scheduled_for)

/-- The per-row transformer of `update_scheduled_post_time`. -/
def updRow (id t : Nat) (r : Post) : Post :=
  if r.id = id ∧ r.status = Status.pending then { r with scheduled_for := t } else r

/-- Pending rows of the platform currently holding a real (non-sentinel)
timestamp. -/
def offSentinel (p : String) (s : Store) : Nat :=
  ((pendingTimes p s).filter (fun u => decide (u ≠ farFuture))).length

/-- Pending rows of the platform parked at the far-future sentinel. -/
def onSentinel (p : String) (s : Store) : Nat :=
  ((pendingTimes p s).filter (fun u => decide (u = farFuture))).length

/-- The per-row transformer of the sentinel phase of redistribution. -/
def sentRow (p : String) (r : Post) : Post :=
  if r.platform = p ∧ r.status = Status.pending
    then { r with scheduled_for := farFuture } else r

/-- The operations of the uniqueness claim, all scoped to one platform:
slot-allocating enqueue (`/schedule/add` with `use_queue`),
redistribution, reorder and move. -/
inductive QOp where
  | enqueue (pid created : Nat)
  | redistribute
  | reorder (ids : List Nat)
  | move (ids : List Nat) (position : String)

/-- Application of one operation.  An allocator exception would abort the
web request; under the well-formed-slots hypothesis of the theorems below
it cannot occur, and it is mapped to the identity here. -/
def applyOp (p : String) (s : Store) : QOp → Store
  | QOp.enqueue pid created =>
    ((get_next_available_slot p s).toOption).elim s (fun ro =>
      ro.elim s (fun t => add_scheduled_post s pid p t created))
  | QOp.redistribute =>
    ((redistribute_scheduled_posts p s).toOption).elim s (fun res => res.2)
  | QOp.reorder ids => (reorder_scheduled_posts ids s).1
  | QOp.move ids position => (move_posts_to_position ids position s).1

def applyOps (p : String) : Store → List QOp → Store
  | s, [] => s
  | s, op :: ops => applyOps p (applyOp p s op) ops

/-- Side conditions under which an operation is issued by the application:
a fresh row id for an enqueue, and a drag-reorder of distinct currently
pending rows. -/
def GoodOp (p : String) (s : Store) : QOp → Prop
  | QOp.enqueue pid _ => pid ∉ s.posts.map (fun r => r.id)
  | QOp.redistribute => True
  | QOp.reorder ids => ids.Nodup ∧ ∀ id ∈ ids, isPendingId s id
  | QOp.move _ _ => True

def GoodTrace (p : String) : Store → List QOp → Prop
  | _, [] => True
  | s, op :: ops => GoodOp p s op ∧ GoodTrace p (applyOp p s op) ops

/-- Status the worker writes for one outcome. -/
def outcomeStatus : PubOutcome → Status
  | PubOutcome.success _ => Status.posted
  | PubOutcome.failure _ => Status.failed
  | PubOutcome.raised _ => Status.failed

/-- Error message the worker writes for one outcome (truncated to 500
characters on the failure paths, as in the source). -/
def outcomeErr : PubOutcome → Option String
  | PubOutcome.success _ => none
  | PubOutcome.failure e => some (truncate500 e)
  | PubOutcome.raised e => some (truncate500 e)

/-- Whether the outcome is a publish failure (unsuccessful result or a
raised exception). -/
def isFailB : PubOutcome → Bool
  | PubOutcome.success _ => false
  | PubOutcome.failure _ => true
  | PubOutcome.raised _ => true

/-- Length of a stored error message (0 when absent). -/
def errLength (o : Option String) : Nat := ((o.map String.length).getD 0)

/-- Row transformer induced by one whole worker tick on the rows whose id
is among the due ids. -/
def statusUpd (oracle : Nat → PubOutcome) (ids : List Nat) (r : Post) : Post :=
  if r.id ∈ ids then
    { r with status := outcomeStatus (oracle r.id),
             error_message := outcomeErr (oracle r.id) }
  else r

/-- The default slot configuration of `initialize_default_time_slots`:
09:00, 12:00, 17:00 every day. -/
def slotsDefault : List TimeSlot :=
  [⟨1, -1, "09:00", true⟩, ⟨2, -1, "12:00", true⟩, ⟨3, -1, "17:00", true⟩]

/-- Empty queue, default slots, local clock Monday 10:00 (day 4 =
1970-01-05 was a Monday). -/
def mondayStore : Store := ⟨[], slotsDefault, [], 4 * 86400 + 10 * 3600⟩

/-- Two pending LinkedIn rows at distinct times, no slots configured. -/
def twoPendingNoSlots : Store :=
  ⟨[⟨1, "linkedin", 1000, Status.pending, 0, none⟩,
    ⟨2, "linkedin", 2000, Status.pending, 1, none⟩], [], [], 500⟩

/-- State `twoPendingNoSlots` reaches after one redistribution: both rows
parked at the far-future sentinel. -/
def twoPendingAfter : Store :=
  ⟨[⟨1, "linkedin", farFuture, Status.pending, 0, none⟩,
    ⟨2, "linkedin", farFuture, Status.pending, 1, none⟩], [], [], 500⟩

/-- A single enabled slot whose time parses but is out of range for
`datetime.replace`. -/
def badSlotStore : Store := ⟨[], [⟨1, -1, "25:00", true⟩], [], 1000⟩

/-- One already-posted LinkedIn row on Monday 09:00, daily limit 1, clock
Monday 08:00. -/
def cxPostedStore : Store :=
  ⟨[⟨1, "linkedin", 4 * 86400 + 9 * 3600, Status.posted, 0, none⟩],
    slotsDefault, [("linkedin", 1)], 4 * 86400 + 8 * 3600⟩

/-- Two pending LinkedIn rows with the default slots, clock Monday 10:00. -/
def c1TraceStore : Store :=
  ⟨[⟨1, "linkedin", 100, Status.pending, 0, none⟩,
    ⟨2, "linkedin", 200, Status.pending, 1, none⟩],
    slotsDefault, [], 4 * 86400 + 10 * 3600⟩

/-- Empty queue, default slots, LinkedIn daily limit 2, clock Monday 10:00. -/
def c2Store : Store := ⟨[], slotsDefault, [("linkedin", 2)], 4 * 86400 + 10 * 3600⟩

/-- Three pending rows A, B, C created in order at times 100 < 200 < 300. -/
def reorderABCStore : Store :=
  ⟨[⟨1, "linkedin", 100, Status.pending, 0, none⟩,
    ⟨2, "linkedin", 200, Status.pending, 1, none⟩,
    ⟨3, "linkedin", 300, Status.pending, 2, none⟩], [], [], 0⟩

/-- Pending rows on two platforms sharing a timestamp across platforms. -/
def moveWStore : Store :=
  ⟨[⟨1, "linkedin", 100, Status.pending, 0, none⟩,
    ⟨2, "linkedin", 200, Status.pending, 1, none⟩,
    ⟨3, "linkedin", 300, Status.pending, 2, none⟩,
    ⟨4, "threads", 100, Status.pending, 3, none⟩], [], [], 0⟩

/-- Two due pending rows. -/
def workerStore : Store :=
  ⟨[⟨1, "linkedin", 100, Status.pending, 0, none⟩,
    ⟨2, "linkedin", 200, Status.pending, 1, none⟩], [], [], 300⟩

/-- External outcomes: row 1's publish fails, the rest succeed. -/
def workerOracle : Nat → PubOutcome :=
  fun id => if id = 1 then PubOutcome.failure "boom" else PubOutcome.success "ok"

/-- Expected final state of row 1 after the failing tick. -/
def workerFinalPost : Post := ⟨1, "linkedin", 100, Status.failed, 0, some "boom"⟩

/-- Written from the claim: rows of the platform on the date whose status
is 'pending' or 'posted' (what the claim says the allocator counts). -/
def pendingPlusPostedCount (p : String) (d : Nat) (s : Store) : Nat :=
  (s.posts.filter (fun r => decide (r.platform = p ∧
    (r.status = Status.pending ∨ r.status = Status.posted) ∧
    r.scheduled_for / 86400 = d))).length

/-- Count returned by a (well-formed) redistribution call. -/
def redistributeCount (p : String) (s : Store) : Nat :=
  (((redistribute_scheduled_posts p s).toOption).map (fun res => res.1)).getD 0

/-- Store produced by a (well-formed) redistribution call. -/
def redistributeStore (p : String) (s : Store) : Store :=
  (((redistribute_scheduled_posts p s).toOption).map (fun res => res.2)).getD s

theorem scanSlots_eq (s : Store) (p : String) (date dow : Nat) (slots : List TimeSlot)
    (hwf : ∀ sl ∈ slots, slotInRangeB sl = true) :
    scanSlots s p date dow slots =
      Except.ok (((slots.filterMap (slotCandidateOf date dow)).filter
        (fun c => decide (s.now < c ∧ c ∉ pendingTimes p s))).head?) := by
  induction slots with
  | nil => rfl
  | cons sl rest ih =>
    have hwf_sl := hwf sl (List.mem_cons_self sl rest)
    have hwf_rest : ∀ x ∈ rest, slotInRangeB x = true :=
      fun x hx => hwf x (List.mem_cons_of_mem sl hx)
    by_cases hday : sl.day_of_week = -1 ∨ sl.day_of_week = (dow : Int)
    · have hday' : ¬ (sl.day_of_week ≠ -1 ∧ sl.day_of_week ≠ (dow : Int)) := by
        rcases hday with h | h <;> simp [h]
      cases hp : parseTimeSlot sl.time_slot with
      | none =>
        simp only [scanSlots, if_neg hday', hp, Option.elim, List.filterMap_cons,
          slotCandidateOf, if_pos hday, Option.map_none']
        exact ih hwf_rest
      | some hm =>
        obtain ⟨h, m⟩ := hm
        have hrange : 0 ≤ h ∧ h < 24 ∧ 0 ≤ m ∧ m < 60 := by
          have hb := hwf_sl
          rw [slotInRangeB, hp] at hb
          exact of_decide_eq_true hb
        have hnoerr : ¬ (h < 0 ∨ 24 ≤ h ∨ m < 0 ∨ 60 ≤ m) := by
          push_neg
          exact ⟨hrange.1, hrange.2.1, hrange.2.2.1, hrange.2.2.2⟩
        have hfc : slotCandidateOf date dow sl = some (slotCandidate date h m) := by
          simp [slotCandidateOf, hday, hp]
        rw [List.filterMap_cons_some hfc]
        by_cases hpast : slotCandidate date h m ≤ s.now
        · have hfilt : (decide (s.now < slotCandidate date h m ∧
              slotCandidate date h m ∉ pendingTimes p s)) = false := by
            simp [not_lt.mpr hpast]
          simp only [scanSlots, if_neg hday', hp, Option.elim, if_neg hnoerr,
            if_pos hpast, List.filter_cons, hfilt, Bool.false_eq_true, if_false]
          exact ih hwf_rest
        · by_cases hconf : slotCandidate date h m ∈ pendingTimes p s
          · have hfilt : (decide (s.now < slotCandidate date h m ∧
                slotCandidate date h m ∉ pendingTimes p s)) = false := by
              simp [hconf]
            simp only [scanSlots, if_neg hday', hp, Option.elim, if_neg hnoerr,
              if_neg hpast, if_pos hconf, List.filter_cons, hfilt,
              Bool.false_eq_true, if_false]
            exact ih hwf_rest
          · have hfilt : (decide (s.now < slotCandidate date h m ∧
                slotCandidate date h m ∉ pendingTimes p s)) = true := by
              simp [not_le.mp hpast, hconf]
            simp only [scanSlots, if_neg hday', hp, Option.elim, if_neg hnoerr,
              if_neg hpast, if_neg hconf, List.filter_cons, hfilt, if_true,
              List.head?_cons]
    · have hday' : sl.day_of_week ≠ -1 ∧ sl.day_of_week ≠ (dow : Int) := by
        push_neg at hday
        exact hday
      simp only [scanSlots, if_pos hday', List.filterMap_cons, slotCandidateOf,
        if_neg hday]
      exact ih hwf_rest

theorem dayCandidates_div (s : Store) (date dow : Nat) (hwf : WFslots s) :
    ∀ c ∈ dayCandidates s date dow, c / 86400 = date := by
  intro c hc
  obtain ⟨sl, hsl, hcand⟩ := List.mem_filterMap.mp hc
  by_cases hday : sl.day_of_week = -1 ∨ sl.day_of_week = (dow : Int)
  · rw [slotCandidateOf, if_pos hday] at hcand
    obtain ⟨hm, hp, hval⟩ := Option.map_eq_some'.mp hcand
    have hb := hwf sl hsl
    rw [slotInRangeB, hp] at hb
    obtain ⟨h0, h24, m0, m60⟩ := of_decide_eq_true hb
    have hh : hm.1.toNat < 24 := by omega
    have hmm : hm.2.toNat < 60 := by omega
    subst hval
    unfold slotCandidate
    omega
  · rw [slotCandidateOf, if_neg hday] at hcand
    exact absurd hcand (Option.some_ne_none c).symm

theorem scanDays_eq (s : Store) (p : String) (lim : Nat) (offs : List Nat)
    (hwf : WFslots s) :
    scanDays s p lim offs = Except.ok ((offs.flatMap (dayLegal p s lim)).head?) := by
  induction offs with
  | nil => rfl
  | cons off rest ih =>
    have hdate : (s.now + off * 86400) / 86400 = s.now / 86400 + off := by omega
    by_cases hskip : 0 < lim ∧ lim ≤ count_scheduled_posts_for_day p ((s.now + off * 86400) / 86400) s
    · have hnil : dayLegal p s lim off = [] := by
        apply List.filter_eq_nil_iff.mpr
        intro c hc
        have hdiv := dayCandidates_div s (s.now / 86400 + off) _ hwf c hc
        rw [hdate] at hskip
        simp only [decide_eq_true_eq, not_and, not_forall, not_lt]
        intro _ _
        exact ⟨hskip.1, by rw [hdiv]; exact hskip.2⟩
      simp only [scanDays, if_pos hskip, List.flatMap_cons, hnil, List.nil_append]
      exact ih
    · have hsame : dayLegal p s lim off =
          (dayCandidates s (s.now / 86400 + off) ((s.now / 86400 + off + 3) % 7)).filter
            (fun c => decide (s.now < c ∧ c ∉ pendingTimes p s)) := by
        apply List.filter_congr
        intro c hc
        have hdiv := dayCandidates_div s (s.now / 86400 + off) _ hwf c hc
        rw [hdate] at hskip
        apply decide_eq_decide.mpr
        constructor
        · intro hx
          exact ⟨hx.1, hx.2.1⟩
        · intro hx
          refine ⟨hx.1, hx.2, ?_⟩
          intro hlim
          rw [hdiv]
          rcases Nat.lt_or_ge (count_scheduled_posts_for_day p (s.now / 86400 + off) s) lim with hlt | hge
          · exact hlt
          · exact absurd ⟨hlim, hge⟩ hskip
      have hscan := scanSlots_eq s p (s.now / 86400 + off)
        ((s.now / 86400 + off + 3) % 7) (get_enabled_time_slots s) hwf
      rw [hdate] at hskip
      simp only [scanDays, hdate, if_neg hskip, hscan, Except.bind, List.flatMap_cons]
      rw [show List.filterMap (slotCandidateOf (s.now / 86400 + off)
            ((s.now / 86400 + off + 3) % 7)) (get_enabled_time_slots s) =
          dayCandidates s (s.now / 86400 + off) ((s.now / 86400 + off + 3) % 7) from rfl]
      rw [← hsame]
      cases hd : dayLegal p s lim off with
      | nil =>
        rw [hsame] at hd
        simp only [hsame, hd, Option.elim, List.nil_append]
        exact ih
      | cons c tl =>
        rw [hsame] at hd
        simp only [hsame, hd, Option.elim, List.head?_cons, List.cons_append]

theorem get_next_available_slot_eq (p : String) (s : Store) (hwf : WFslots s) :
    get_next_available_slot p s =
      Except.ok (((List.range 30).flatMap (dayLegal p s (get_daily_limit s p))).head?) := by
  unfold get_next_available_slot
  by_cases he : (get_enabled_time_slots s).isEmpty
  · have hemp : get_enabled_time_slots s = [] := List.isEmpty_iff.mp he
    have hnil : ∀ off ∈ List.range 30, dayLegal p s (get_daily_limit s p) off = [] := by
      intro off _
      unfold dayLegal dayCandidates
      rw [hemp]
      rfl
    rw [if_pos he, List.flatMap_eq_nil_iff.mpr hnil]
    rfl
  · rw [if_neg he]
    exact scanDays_eq s p (get_daily_limit s p) (List.range 30) hwf

/-- Claim-side list of legal candidates, assembled per day. -/
theorem legalCandidates_eq_flatMap (p : String) (s : Store) :
    legalCandidates p s = (List.range 30).flatMap (dayLegal p s (get_daily_limit s p)) := rfl

theorem alloc_ok_head (p : String) (s : Store) (hwf : WFslots s) :
    get_next_available_slot p s = Except.ok ((legalCandidates p s).head?) :=
  get_next_available_slot_eq p s hwf

theorem alloc_some_mem (p : String) (s : Store) (c : Nat) (hwf : WFslots s)
    (h : get_next_available_slot p s = Except.ok (some c)) : c ∈ legalCandidates p s := by
  have hh := (alloc_ok_head p s hwf).symm.trans h
  have hhd : (legalCandidates p s).head? = some c := by
    exact Except.ok.inj hh
  cases hl : legalCandidates p s with
  | nil => rw [hl] at hhd; exact absurd hhd (by simp)
  | cons a tl =>
    rw [hl] at hhd
    simp only [List.head?_cons, Option.some.injEq] at hhd
    rw [hhd]
    exact List.mem_cons_self c tl

theorem alloc_some_props (p : String) (s : Store) (c : Nat) (hwf : WFslots s)
    (h : get_next_available_slot p s = Except.ok (some c)) :
    s.now < c ∧ c ∉ pendingTimes p s ∧
      (0 < get_daily_limit s p →
        count_scheduled_posts_for_day p (c / 86400) s < get_daily_limit s p) := by
  have hm := alloc_some_mem p s c hwf h
  rw [legalCandidates_eq_flatMap] at hm
  obtain ⟨off, _, hmem⟩ := List.mem_flatMap.mp hm
  have := List.mem_filter.mp hmem
  exact of_decide_eq_true this.2

theorem scanSlots_filter_parseable (s : Store) (p : String) (date dow : Nat) :
    ∀ slots : List TimeSlot,
      scanSlots s p date dow slots = scanSlots s p date dow (slots.filter parseableB)
  | [] => rfl
  | sl :: rest => by
    have ih := scanSlots_filter_parseable s p date dow rest
    cases hp : parseTimeSlot sl.time_slot with
    | none =>
      simp only [scanSlots, List.filter_cons, parseableB, hp, Option.isSome_none,
        Bool.false_eq_true, if_false, Option.elim, ite_self]
      exact ih
    | some hm =>
      simp only [scanSlots, List.filter_cons, parseableB, hp, Option.isSome_some,
        if_true, Option.elim]
      rw [ih]

theorem filter_orderedInsert {α : Type} (r : α → α → Prop) [DecidableRel r]
    [IsTrans α r] (q : α → Bool) (x : α) :
    ∀ l : List α, l.Sorted r →
      (l.orderedInsert r x).filter q =
        if q x then (l.filter q).orderedInsert r x else l.filter q
  | [], _ => by
    by_cases hqx : q x <;>
      simp [List.orderedInsert, List.filter_cons, hqx]
  | y :: ys, hsort => by
    have ihtail := filter_orderedInsert r q x ys hsort.of_cons
    by_cases hxy : r x y
    · rw [List.orderedInsert_of_le r ys hxy]
      by_cases hqx : q x
      · rw [if_pos hqx, List.filter_cons_of_pos hqx]
        cases hf : (y :: ys).filter q with
        | nil => rfl
        | cons z zs =>
          have hz : z ∈ (y :: ys).filter q := by
            rw [hf]
            exact List.mem_cons_self z zs
          have hz' : z ∈ y :: ys := List.mem_of_mem_filter hz
          have hrz : r x z := by
            rcases List.mem_cons.mp hz' with h | h
            · rw [h]; exact hxy
            · exact Trans.trans hxy (List.rel_of_sorted_cons hsort z h)
          rw [List.orderedInsert_of_le r zs hrz]
      · rw [if_neg hqx, List.filter_cons_of_neg (by simpa using hqx)]
    · have hLHS : List.orderedInsert r x (y :: ys) = y :: List.orderedInsert r x ys := by
        simp [List.orderedInsert, hxy]
      rw [hLHS]
      by_cases hqy : q y
      · rw [List.filter_cons_of_pos hqy, List.filter_cons_of_pos hqy, ihtail]
        by_cases hqx : q x
        · rw [if_pos hqx, if_pos hqx]
          simp [List.orderedInsert, hxy]
        · rw [if_neg hqx, if_neg hqx]
      · rw [List.filter_cons_of_neg (by simpa using hqy),
          List.filter_cons_of_neg (by simpa using hqy), ihtail]

theorem filter_insertionSort {α : Type} (r : α → α → Prop) [DecidableRel r]
    [IsTotal α r] [IsTrans α r] (q : α → Bool) :
    ∀ l : List α, (List.insertionSort r l).filter q = List.insertionSort r (l.filter q)
  | [] => rfl
  | x :: l => by
    have ih := filter_insertionSort r q l
    simp only [List.insertionSort]
    rw [filter_orderedInsert r q x _ (List.sorted_insertionSort r l)]
    by_cases hqx : q x
    · rw [if_pos hqx, ih, List.filter_cons, if_pos hqx]
      rfl
    · rw [if_neg hqx, ih, List.filter_cons,
        if_neg (by simpa using hqx)]

theorem scanSlots_slots_irrel (s : Store) (X Y : List TimeSlot) (p : String) (date dow : Nat) :
    ∀ l, scanSlots { s with slots := X } p date dow l = scanSlots { s with slots := Y } p date dow l
  | [] => rfl
  | sl :: rest => by
    have ih := scanSlots_slots_irrel s X Y p date dow rest
    simp only [scanSlots]
    rw [ih]
    rfl

theorem scanDays_ok_none (s : Store) (p : String) (lim : Nat)
    (hnone : ∀ date dow, scanSlots s p date dow (get_enabled_time_slots s) = Except.ok none) :
    ∀ offs, scanDays s p lim offs = Except.ok none
  | [] => rfl
  | off :: rest => by
    have ih := scanDays_ok_none s p lim hnone rest
    simp only [scanDays, hnone, Except.bind, Option.elim, ih, ite_self]

theorem count_day_slots_irrel (p : String) (d : Nat) (s : Store) (X : List TimeSlot) :
    count_scheduled_posts_for_day p d { s with slots := X } =
      count_scheduled_posts_for_day p d s := rfl

theorem now_slots_irrel (s : Store) (X : List TimeSlot) :
    ({ s with slots := X } : Store).now = s.now := rfl

theorem limit_slots_irrel (s : Store) (p : String) (X : List TimeSlot) :
    get_daily_limit { s with slots := X } p = get_daily_limit s p := rfl

theorem scanDays_slots_congr (s : Store) (X Y : List TimeSlot) (p : String) (lim : Nat)
    (hfilt : (get_enabled_time_slots { s with slots := X }).filter parseableB =
      (get_enabled_time_slots { s with slots := Y }).filter parseableB) :
    ∀ offs, scanDays { s with slots := X } p lim offs = scanDays { s with slots := Y } p lim offs
  | [] => rfl
  | off :: rest => by
    have ih := scanDays_slots_congr s X Y p lim hfilt rest
    have hscan : ∀ date dow,
        scanSlots { s with slots := X } p date dow (get_enabled_time_slots { s with slots := X }) =
          scanSlots { s with slots := Y } p date dow (get_enabled_time_slots { s with slots := Y }) := by
      intro date dow
      rw [scanSlots_filter_parseable, hfilt, ← scanSlots_filter_parseable,
        scanSlots_slots_irrel s X Y]
    simp only [scanDays, count_day_slots_irrel, now_slots_irrel]
    rw [ih, hscan]

theorem gnas_unparseable_irrel (s : Store) (p : String) (l1 l2 : List TimeSlot)
    (bad : TimeSlot) (hbad : parseTimeSlot bad.time_slot = none) :
    get_next_available_slot p { s with slots := l1 ++ bad :: l2 } =
      get_next_available_slot p { s with slots := l1 ++ l2 } := by
  have hbadB : parseableB bad = false := by
    simp [parseableB, hbad]
  have hfilt : (get_enabled_time_slots { s with slots := l1 ++ bad :: l2 }).filter parseableB =
      (get_enabled_time_slots { s with slots := l1 ++ l2 }).filter parseableB := by
    unfold get_enabled_time_slots
    rw [filter_insertionSort, filter_insertionSort]
    congr 1
    rw [List.filter_filter, List.filter_filter]
    simp only [List.filter_append, List.filter_cons, hbadB, Bool.false_and,
      Bool.false_eq_true, if_false]
  have hnone_of_empty : ∀ Z : List TimeSlot,
      (get_enabled_time_slots { s with slots := Z }).filter parseableB = [] →
      ¬ (get_enabled_time_slots { s with slots := Z }).isEmpty = true →
      get_next_available_slot p { s with slots := Z } = Except.ok none := by
    intro Z hz hne
    unfold get_next_available_slot
    rw [if_neg hne]
    apply scanDays_ok_none
    intro date dow
    rw [scanSlots_filter_parseable, hz]
    rfl
  by_cases he1 : (get_enabled_time_slots { s with slots := l1 ++ bad :: l2 }).isEmpty = true
  · by_cases he2 : (get_enabled_time_slots { s with slots := l1 ++ l2 }).isEmpty = true
    · unfold get_next_available_slot
      rw [if_pos he1, if_pos he2]
    · have h1 : get_enabled_time_slots { s with slots := l1 ++ bad :: l2 } = [] :=
        List.isEmpty_iff.mp he1
      have h2 : (get_enabled_time_slots { s with slots := l1 ++ l2 }).filter parseableB = [] := by
        rw [← hfilt, h1]
        rfl
      rw [hnone_of_empty _ h2 he2]
      unfold get_next_available_slot
      rw [if_pos he1]
  · by_cases he2 : (get_enabled_time_slots { s with slots := l1 ++ l2 }).isEmpty = true
    · have h2 : get_enabled_time_slots { s with slots := l1 ++ l2 } = [] :=
        List.isEmpty_iff.mp he2
      have h1 : (get_enabled_time_slots { s with slots := l1 ++ bad :: l2 }).filter parseableB = [] := by
        rw [hfilt, h2]
        rfl
      rw [hnone_of_empty _ h1 he1]
      unfold get_next_available_slot
      rw [if_pos he2]
    · unfold get_next_available_slot
      rw [if_neg he1, if_neg he2, limit_slots_irrel, limit_slots_irrel]
      exact scanDays_slots_congr s (l1 ++ bad :: l2) (l1 ++ l2) p (get_daily_limit s p)
        hfilt (List.range 30)

theorem UniqES_count {p : String} {s : Store} (h : UniqES p s) :
    ∀ t, t ≠ farFuture → (pendingTimes p s).count t ≤ 1 := by
  intro t ht
  by_cases hm : t ∈ pendingTimes p s
  · exact h t hm ht
  · rw [List.count_eq_zero.mpr hm]
    exact Nat.zero_le 1

theorem reassign_nil_left (times : List Nat) (r : Post) : reassign [] times r = r := rfl

theorem reassign_nil_right (ids : List Nat) (r : Post) : reassign ids [] r = r := by
  unfold reassign
  rw [List.zip_nil_right]
  rfl

theorem reassign_id (ids times : List Nat) (r : Post) : (reassign ids times r).id = r.id := by
  unfold reassign
  cases ((ids.zip times).find? (fun q => q.1 == r.id)) with
  | none => rfl
  | some q =>
    simp only [Option.elim]
    split <;> rfl

theorem reassign_status (ids times : List Nat) (r : Post) :
    (reassign ids times r).status = r.status := by
  unfold reassign
  cases ((ids.zip times).find? (fun q => q.1 == r.id)) with
  | none => rfl
  | some q =>
    simp only [Option.elim]
    split <;> rfl

theorem reassign_platform (ids times : List Nat) (r : Post) :
    (reassign ids times r).platform = r.platform := by
  unfold reassign
  cases ((ids.zip times).find? (fun q => q.1 == r.id)) with
  | none => rfl
  | some q =>
    simp only [Option.elim]
    split <;> rfl

theorem reassign_not_mem (ids times : List Nat) (r : Post) (h : r.id ∉ ids) :
    reassign ids times r = r := by
  unfold reassign
  rw [List.find?_eq_none.mpr]
  · rfl
  · intro q hq
    have := (List.of_mem_zip hq).1
    simp only [beq_iff_eq]
    intro hcontra
    rw [hcontra] at this
    exact h this

theorem reassign_not_pending (ids times : List Nat) (r : Post)
    (h : ¬ r.status = Status.pending) :
    reassign ids times r = r := by
  unfold reassign
  cases ((ids.zip times).find? (fun q => q.1 == r.id)) with
  | none => rfl
  | some q =>
    simp only [Option.elim, if_neg h]

theorem assignTimes_slots (ids : List Nat) : ∀ (times : List Nat) (s : Store),
    (assignTimes ids times s).slots = s.slots := by
  induction ids with
  | nil =>
    intro times s
    cases times <;> rfl
  | cons id ids ih =>
    intro times s
    cases times with
    | nil => rfl
    | cons t ts => exact ih ts _

theorem assignTimes_limits (ids : List Nat) : ∀ (times : List Nat) (s : Store),
    (assignTimes ids times s).limits = s.limits := by
  induction ids with
  | nil =>
    intro times s
    cases times <;> rfl
  | cons id ids ih =>
    intro times s
    cases times with
    | nil => rfl
    | cons t ts => exact ih ts _

theorem assignTimes_now (ids : List Nat) : ∀ (times : List Nat) (s : Store),
    (assignTimes ids times s).now = s.now := by
  induction ids with
  | nil =>
    intro times s
    cases times <;> rfl
  | cons id ids ih =>
    intro times s
    cases times with
    | nil => rfl
    | cons t ts => exact ih ts _

theorem reassign_step (id t : Nat) (ids ts : List Nat) (hid : id ∉ ids) (r : Post) :
    reassign ids ts (if r.id = id ∧ r.status = Status.pending
        then { r with scheduled_for := t } else r) =
      reassign (id :: ids) (t :: ts) r := by
  by_cases hr : r.id = id
  · have hfind : ((id :: ids).zip (t :: ts)).find? (fun q => q.1 == r.id) = some (id, t) := by
      rw [List.zip_cons_cons, List.find?_cons_of_pos]
      simp [hr]
    by_cases hp : r.status = Status.pending
    · rw [if_pos ⟨hr, hp⟩]
      rw [reassign_not_mem ids ts _ (by simpa using hr ▸ hid)]
      unfold reassign
      rw [hfind]
      simp only [Option.elim, if_pos hp]
    · rw [if_neg (fun hc => hp hc.2)]
      rw [reassign_not_mem ids ts r (by rw [hr]; exact hid)]
      unfold reassign
      rw [hfind]
      simp only [Option.elim, if_neg hp]
  · rw [if_neg (fun hc => hr hc.1)]
    unfold reassign
    have hpa : ¬ (((id, t) : Nat × Nat).1 == r.id) = true := by
      simp only [beq_iff_eq]
      exact fun h => hr h.symm
    rw [List.zip_cons_cons, List.find?_cons_of_neg (ids.zip ts) hpa]

theorem assignTimes_posts (ids : List Nat) : ∀ (times : List Nat) (s : Store),
    ids.Nodup → (assignTimes ids times s).posts = s.posts.map (reassign ids times) := by
  induction ids with
  | nil =>
    intro times s _
    cases times with
    | nil =>
      rw [show assignTimes [] [] s = s from rfl]
      rw [show reassign ([] : List Nat) [] = fun r => r from funext (fun r => rfl)]
      exact (List.map_id' s.posts).symm
    | cons t ts =>
      rw [show assignTimes [] (t :: ts) s = s from rfl]
      rw [show reassign ([] : List Nat) (t :: ts) = fun r => r from funext (fun r => rfl)]
      exact (List.map_id' s.posts).symm
  | cons id ids ih =>
    intro times s hNd
    cases times with
    | nil =>
      rw [show assignTimes (id :: ids) [] s = s from rfl]
      rw [show reassign (id :: ids) [] = fun r => r from
        funext (fun r => reassign_nil_right (id :: ids) r)]
      exact (List.map_id' s.posts).symm
    | cons t ts =>
      have hid : id ∉ ids := (List.nodup_cons.mp hNd).1
      have hstep : assignTimes (id :: ids) (t :: ts) s =
          assignTimes ids ts (update_scheduled_post_time id t s).1 := rfl
      rw [hstep, ih ts _ (List.nodup_cons.mp hNd).2]
      rw [show (update_scheduled_post_time id t s).1.posts =
        s.posts.map (fun r => if r.id = id ∧ r.status = Status.pending
          then { r with scheduled_for := t } else r) from rfl]
      rw [List.map_map]
      apply List.map_congr_left
      intro r _
      exact reassign_step id t ids ts hid r

theorem partnerVal_cons_self (a t : Nat) (ids ts : List Nat) :
    partnerVal (a :: ids) (t :: ts) a = t := by
  unfold partnerVal
  rw [List.zip_cons_cons, List.find?_cons_of_pos _ (by simp)]
  rfl

theorem partnerVal_cons_ne (a t id : Nat) (ids ts : List Nat) (h : id ≠ a) :
    partnerVal (a :: ids) (t :: ts) id = partnerVal ids ts id := by
  unfold partnerVal
  rw [List.zip_cons_cons, List.find?_cons_of_neg _
    (by simp only [beq_iff_eq]; exact fun hc => h hc.symm)]

theorem map_partnerVal : ∀ (ids times : List Nat), ids.Nodup →
    ids.length = times.length → ids.map (partnerVal ids times) = times
  | [], [], _, _ => rfl
  | [], t :: ts, _, hlen => by simp at hlen
  | a :: ids, [], _, hlen => by simp at hlen
  | a :: ids, t :: ts, hNd, hlen => by
    have hid : a ∉ ids := (List.nodup_cons.mp hNd).1
    simp only [List.map_cons, partnerVal_cons_self, List.cons.injEq, true_and]
    rw [List.map_congr_left (fun x hx =>
      partnerVal_cons_ne a t x ids ts (fun hc => hid (hc ▸ hx)))]
    exact map_partnerVal ids ts (List.nodup_cons.mp hNd).2 (by simpa using hlen)

theorem partnerVal_zip_mem : ∀ (ids times : List Nat), ids.Nodup →
    ∀ pr ∈ ids.zip times, partnerVal ids times pr.1 = pr.2
  | [], times, _, pr, hpr => by simp at hpr
  | a :: ids, [], _, pr, hpr => by simp [List.zip_nil_right] at hpr
  | a :: ids, t :: ts, hNd, pr, hpr => by
    rw [List.zip_cons_cons] at hpr
    rcases List.mem_cons.mp hpr with h | h
    · rw [h]
      exact partnerVal_cons_self a t ids ts
    · have h1 : pr.1 ∈ ids := (List.of_mem_zip h).1
      have hne : pr.1 ≠ a := fun hc => (List.nodup_cons.mp hNd).1 (hc ▸ h1)
      rw [partnerVal_cons_ne a t pr.1 ids ts hne]
      exact partnerVal_zip_mem ids ts (List.nodup_cons.mp hNd).2 pr h

theorem reassign_sched_of_pending (ids times : List Nat) (r : Post)
    (hp : r.status = Status.pending) (hmem : r.id ∈ ids)
    (hlen : ids.length = times.length) :
    (reassign ids times r).scheduled_for = partnerVal ids times r.id := by
  have hfst : (ids.zip times).map Prod.fst = ids :=
    List.map_fst_zip ids times (le_of_eq hlen)
  have hex : ∃ q ∈ ids.zip times, q.1 = r.id := by
    rw [← hfst] at hmem
    obtain ⟨q, hq, hq'⟩ := List.mem_map.mp hmem
    exact ⟨q, hq, hq'⟩
  cases hf : (ids.zip times).find? (fun q => q.1 == r.id) with
  | none =>
    obtain ⟨q, hq, hq'⟩ := hex
    have := List.find?_eq_none.mp hf q hq
    simp [hq'] at this
  | some q =>
    unfold reassign partnerVal
    rw [hf]
    simp only [Option.elim, if_pos hp, Option.map_some', Option.getD_some]

theorem pendingTimes_eq_all (p : String) (s : Store) (hSP : SinglePlatform p s) :
    pendingTimes p s = allPendingTimes s := by
  unfold pendingTimes allPendingTimes
  congr 1
  apply List.filter_congr
  intro r hr
  apply decide_eq_decide.mpr
  constructor
  · exact fun h => h.1
  · exact fun h => ⟨h, hSP r hr h⟩

theorem selRows_ids_perm (s : Store) (ids : List Nat) (hIds : IdsNodup s)
    (hNd : ids.Nodup) (hpend : ∀ id ∈ ids, isPendingId s id) :
    ((s.posts.filter (fun r => decide (r.id ∈ ids ∧ r.status = Status.pending))).map
      (fun r => r.id)).Perm ids := by
  have hnd1 : ((s.posts.filter
      (fun r => decide (r.id ∈ ids ∧ r.status = Status.pending))).map
      (fun r => r.id)).Nodup :=
    List.Nodup.sublist (List.Sublist.map _ (List.filter_sublist _)) hIds
  apply (List.perm_ext_iff_of_nodup hnd1 hNd).mpr
  intro a
  constructor
  · intro ha
    obtain ⟨r, hr, hra⟩ := List.mem_map.mp ha
    have := of_decide_eq_true (List.mem_filter.mp hr).2
    exact hra ▸ this.1
  · intro ha
    obtain ⟨r, hr, hrid, hrp⟩ := hpend a ha
    refine List.mem_map.mpr ⟨r, List.mem_filter.mpr ⟨hr, ?_⟩, hrid⟩
    exact decide_eq_true ⟨hrid ▸ ha, hrp⟩

theorem map_sched_sel_perm (s : Store) (ids times : List Nat)
    (hIds : IdsNodup s) (hNd : ids.Nodup)
    (hpend : ∀ id ∈ ids, isPendingId s id)
    (hlen : ids.length = times.length) :
    ((s.posts.filter (fun r => decide (r.id ∈ ids ∧ r.status = Status.pending))).map
      (fun r => (reassign ids times r).scheduled_for)).Perm times := by
  have h1 : ((s.posts.filter
        (fun r => decide (r.id ∈ ids ∧ r.status = Status.pending))).map
        (fun r => (reassign ids times r).scheduled_for)) =
      ((s.posts.filter (fun r => decide (r.id ∈ ids ∧ r.status = Status.pending))).map
        (fun r => r.id)).map (partnerVal ids times) := by
    rw [List.map_map]
    apply List.map_congr_left
    intro r hr
    have hc := of_decide_eq_true (List.mem_filter.mp hr).2
    exact reassign_sched_of_pending ids times r hc.2 hc.1 hlen
  rw [h1]
  have h2 := (selRows_ids_perm s ids hIds hNd hpend).map (partnerVal ids times)
  rw [map_partnerVal ids times hNd hlen] at h2
  exact h2

theorem assignTimes_allPending_perm (s : Store) (ids times : List Nat)
    (hIds : IdsNodup s) (hNd : ids.Nodup)
    (hpend : ∀ id ∈ ids, isPendingId s id)
    (hlen : ids.length = times.length)
    (htimes : times.Perm ((s.posts.filter
      (fun r => decide (r.id ∈ ids ∧ r.status = Status.pending))).map
      (fun r => r.scheduled_for))) :
    (allPendingTimes (assignTimes ids times s)).Perm (allPendingTimes s) := by
  unfold allPendingTimes
  rw [assignTimes_posts ids times s hNd]
  rw [List.filter_map]
  have hfc : s.posts.filter ((fun r => decide (r.status = Status.pending)) ∘ reassign ids times) =
      s.posts.filter (fun r => decide (r.status = Status.pending)) := by
    apply List.filter_congr
    intro r _
    simp only [Function.comp_apply, reassign_status]
  rw [hfc, List.map_map]
  rw [show ((fun r => r.scheduled_for) ∘ reassign ids times) =
    (fun r => (reassign ids times r).scheduled_for) from rfl]
  have hsplit := List.filter_append_perm (fun r => decide (r.id ∈ ids))
    (s.posts.filter (fun r => decide (r.status = Status.pending)))
  have hSel : ((s.posts.filter (fun r => decide (r.status = Status.pending))).filter
      (fun r => decide (r.id ∈ ids))) =
      s.posts.filter (fun r => decide (r.id ∈ ids ∧ r.status = Status.pending)) := by
    rw [List.filter_filter]
    apply List.filter_congr
    intro r _
    by_cases h1 : r.id ∈ ids <;> by_cases h2 : r.status = Status.pending <;>
      simp [h1, h2]
  have hOth : ((s.posts.filter (fun r => decide (r.status = Status.pending))).filter
        (fun r => !decide (r.id ∈ ids))).map
        (fun r => (reassign ids times r).scheduled_for) =
      ((s.posts.filter (fun r => decide (r.status = Status.pending))).filter
        (fun r => !decide (r.id ∈ ids))).map (fun r => r.scheduled_for) := by
    apply List.map_congr_left
    intro r hr
    have hnm : r.id ∉ ids := by
      have := (List.mem_filter.mp hr).2
      simpa using this
    rw [reassign_not_mem ids times r hnm]
  have hSelPerm : (((s.posts.filter (fun r => decide (r.status = Status.pending))).filter
        (fun r => decide (r.id ∈ ids))).map
        (fun r => (reassign ids times r).scheduled_for)).Perm times := by
    rw [hSel]
    exact map_sched_sel_perm s ids times hIds hNd hpend hlen
  refine List.Perm.trans
    ((hsplit.map (fun r => (reassign ids times r).scheduled_for)).symm) ?_
  rw [List.map_append, hOth]
  have hleft : (((s.posts.filter (fun r => decide (r.status = Status.pending))).filter
        (fun r => decide (r.id ∈ ids))).map
        (fun r => (reassign ids times r).scheduled_for)).Perm
      (((s.posts.filter (fun r => decide (r.status = Status.pending))).filter
        (fun r => decide (r.id ∈ ids))).map (fun r => r.scheduled_for)) := by
    refine hSelPerm.trans ?_
    rw [hSel]
    exact htimes
  refine List.Perm.trans (List.Perm.append hleft (List.Perm.refl _)) ?_
  rw [← List.map_append]
  exact hsplit.map _

theorem update_time_slots (id t : Nat) (s : Store) :
    (update_scheduled_post_time id t s).1.slots = s.slots := rfl

theorem update_time_limits (id t : Nat) (s : Store) :
    (update_scheduled_post_time id t s).1.limits = s.limits := rfl

theorem update_time_now (id t : Nat) (s : Store) :
    (update_scheduled_post_time id t s).1.now = s.now := rfl

theorem update_time_posts (id t : Nat) (s : Store) :
    (update_scheduled_post_time id t s).1.posts = s.posts.map (updRow id t) := rfl

theorem updRow_id (id t : Nat) (r : Post) : (updRow id t r).id = r.id := by
  unfold updRow
  split <;> rfl

theorem updRow_status (id t : Nat) (r : Post) : (updRow id t r).status = r.status := by
  unfold updRow
  split <;> rfl

theorem updRow_platform (id t : Nat) (r : Post) : (updRow id t r).platform = r.platform := by
  unfold updRow
  split <;> rfl

theorem updRow_ne (id t : Nat) (r : Post) (h : r.id ≠ id) : updRow id t r = r := by
  unfold updRow
  rw [if_neg (fun hc => h hc.1)]

theorem update_time_ids (id t : Nat) (s : Store) :
    (update_scheduled_post_time id t s).1.posts.map (fun r => r.id) =
      s.posts.map (fun r => r.id) := by
  rw [update_time_posts, List.map_map]
  apply List.map_congr_left
  intro r _
  exact updRow_id id t r

theorem update_time_IdsNodup (id t : Nat) (s : Store) (h : IdsNodup s) :
    IdsNodup (update_scheduled_post_time id t s).1 := by
  unfold IdsNodup
  rw [update_time_ids]
  exact h

theorem WFslots_of_slots_eq (s s' : Store) (hsl : s'.slots = s.slots) (h : WFslots s) :
    WFslots s' := by
  unfold WFslots get_enabled_time_slots at h ⊢
  rw [hsl]
  exact h

theorem update_time_SinglePlatform (p : String) (id t : Nat) (s : Store)
    (h : SinglePlatform p s) : SinglePlatform p (update_scheduled_post_time id t s).1 := by
  intro r hr hrp
  rw [update_time_posts] at hr
  obtain ⟨r0, hr0, hr0e⟩ := List.mem_map.mp hr
  subst hr0e
  rw [updRow_status] at hrp
  rw [updRow_platform]
  exact h r0 hr0 hrp

/-- Commutes the platform-pending filter past the row update. -/
theorem update_time_pendingFilter (p : String) (id t : Nat) (s : Store) :
    (update_scheduled_post_time id t s).1.posts.filter
        (fun r => decide (r.status = Status.pending ∧ r.platform = p)) =
      (s.posts.filter (fun r => decide (r.status = Status.pending ∧ r.platform = p))).map
        (updRow id t) := by
  rw [update_time_posts, List.filter_map]
  congr 1
  apply List.filter_congr
  intro r _
  simp only [Function.comp_apply, updRow_status, updRow_platform]

/-- With unique ids, updating the time of a pending row of this platform
replaces exactly that row's entry in the platform's pending-times list. -/
theorem update_pendingTimes_split (p : String) (s : Store) (id t : Nat)
    (hIds : IdsNodup s) (r0 : Post) (hr0 : r0 ∈ s.posts) (hid : r0.id = id)
    (hp : r0.status = Status.pending) (hpl : r0.platform = p) :
    ∃ L1 L2, pendingTimes p s = L1 ++ r0.scheduled_for :: L2 ∧
      pendingTimes p (update_scheduled_post_time id t s).1 = L1 ++ t :: L2 := by
  have hr0f : r0 ∈ s.posts.filter
      (fun r => decide (r.status = Status.pending ∧ r.platform = p)) :=
    List.mem_filter.mpr ⟨hr0, decide_eq_true ⟨hp, hpl⟩⟩
  obtain ⟨A, B, hAB⟩ := List.append_of_mem hr0f
  have hsub : (s.posts.filter
      (fun r => decide (r.status = Status.pending ∧ r.platform = p))).Sublist s.posts :=
    List.filter_sublist s.posts
  have hndP : ((s.posts.filter
      (fun r => decide (r.status = Status.pending ∧ r.platform = p))).map
      (fun r => r.id)).Nodup :=
    List.Nodup.sublist (List.Sublist.map _ hsub) hIds
  rw [hAB, List.map_append, List.map_cons] at hndP
  have hA : ∀ r ∈ A, r.id ≠ id := by
    intro r hrA hcontra
    have h1 : r0.id ∈ A.map (fun r => r.id) :=
      List.mem_map.mpr ⟨r, hrA, by rw [hcontra, hid]⟩
    have := (List.nodup_append.mp hndP).2.2
    exact this h1 (List.mem_cons_self _ _)
  have hB : ∀ r ∈ B, r.id ≠ id := by
    intro r hrB hcontra
    have hndc : (r0.id :: B.map (fun r => r.id)).Nodup := (List.nodup_append.mp hndP).2.1
    have h1 : r0.id ∈ B.map (fun r => r.id) :=
      List.mem_map.mpr ⟨r, hrB, by rw [hcontra, hid]⟩
    exact (List.nodup_cons.mp hndc).1 h1
  refine ⟨A.map (fun r => r.scheduled_for), B.map (fun r => r.scheduled_for), ?_, ?_⟩
  · unfold pendingTimes
    rw [hAB, List.map_append, List.map_cons]
  · unfold pendingTimes
    have hupd0 : updRow id t r0 = { r0 with scheduled_for := t } := by
      unfold updRow
      rw [if_pos ⟨hid, hp⟩]
    have hmapA : A.map ((fun r => r.scheduled_for) ∘ updRow id t) =
        A.map (fun r => r.scheduled_for) := by
      apply List.map_congr_left
      intro r hrA
      simp only [Function.comp_apply, updRow_ne id t r (hA r hrA)]
    have hmapB : B.map ((fun r => r.scheduled_for) ∘ updRow id t) =
        B.map (fun r => r.scheduled_for) := by
      apply List.map_congr_left
      intro r hrB
      simp only [Function.comp_apply, updRow_ne id t r (hB r hrB)]
    rw [update_time_pendingFilter, hAB, List.map_append, List.map_cons,
      List.map_append, List.map_cons, List.map_map, List.map_map,
      hmapA, hmapB, hupd0]

/-- If no pending row of the platform carries the id, the platform's
pending-times list is untouched by the update. -/
theorem update_pendingTimes_nomatch (p : String) (s : Store) (id t : Nat)
    (hno : ∀ r ∈ s.posts, r.status = Status.pending → r.platform = p → r.id ≠ id) :
    pendingTimes p (update_scheduled_post_time id t s).1 = pendingTimes p s := by
  unfold pendingTimes
  rw [update_time_pendingFilter, List.map_map]
  apply List.map_congr_left
  intro r hr
  have hc := of_decide_eq_true (List.mem_filter.mp hr).2
  simp only [Function.comp_apply,
    updRow_ne id t r (hno r (List.mem_filter.mp hr).1 hc.1 hc.2)]

theorem UniqES_update (p : String) (s : Store) (id t : Nat) (hIds : IdsNodup s)
    (hU : UniqES p s) (ht : t ∉ pendingTimes p s) :
    UniqES p (update_scheduled_post_time id t s).1 := by
  by_cases hex : ∃ r ∈ s.posts, r.id = id ∧ r.status = Status.pending ∧ r.platform = p
  · obtain ⟨r0, hr0, hid, hp, hpl⟩ := hex
    obtain ⟨L1, L2, hold, hnew⟩ :=
      update_pendingTimes_split p s id t hIds r0 hr0 hid hp hpl
    intro u hu huff
    rw [hnew]
    rw [hnew] at hu
    by_cases hut : u = t
    · subst hut
      have hcnt : (pendingTimes p s).count u = 0 := List.count_eq_zero.mpr ht
      rw [hold, List.count_append] at hcnt
      have h2 : L2.count u ≤ (r0.scheduled_for :: L2).count u := List.count_le_count_cons u _ L2
      rw [List.count_append, List.count_cons_self]
      omega
    · have hle := UniqES_count hU u huff
      rw [hold, List.count_append] at hle
      have h2 : L2.count u ≤ (r0.scheduled_for :: L2).count u := List.count_le_count_cons u _ L2
      rw [List.count_append, List.count_cons_of_ne hut]
      omega
  · push_neg at hex
    have heq := update_pendingTimes_nomatch p s id t
      (fun r hr hp hpl hid => hex r hr hid hp hpl)
    unfold UniqES
    rw [heq]
    exact hU

theorem length_filter_mid (q : Nat → Bool) (L1 L2 : List Nat) (x : Nat) :
    ((L1 ++ x :: L2).filter q).length =
      (L1.filter q).length + (L2.filter q).length + (if q x then 1 else 0) := by
  rw [List.filter_append, List.filter_cons, List.length_append]
  split <;> simp <;> omega

theorem sps_posts (p : String) (s : Store) :
    (setPendingToSentinel p s).posts = s.posts.map (sentRow p) := rfl

theorem sps_slots (p : String) (s : Store) :
    (setPendingToSentinel p s).slots = s.slots := rfl

theorem sentRow_id (p : String) (r : Post) : (sentRow p r).id = r.id := by
  unfold sentRow
  split <;> rfl

theorem sentRow_status (p : String) (r : Post) : (sentRow p r).status = r.status := by
  unfold sentRow
  split <;> rfl

theorem sentRow_platform (p : String) (r : Post) : (sentRow p r).platform = r.platform := by
  unfold sentRow
  split <;> rfl

theorem sps_pendingTimes (p : String) (s : Store) :
    pendingTimes p (setPendingToSentinel p s) =
      List.replicate (pendingTimes p s).length farFuture := by
  unfold pendingTimes
  rw [sps_posts, List.filter_map]
  have hfc : s.posts.filter
      ((fun r => decide (r.status = Status.pending ∧ r.platform = p)) ∘ sentRow p) =
      s.posts.filter (fun r => decide (r.status = Status.pending ∧ r.platform = p)) := by
    apply List.filter_congr
    intro r _
    simp only [Function.comp_apply, sentRow_status, sentRow_platform]
  rw [hfc, List.map_map]
  apply List.eq_replicate.mpr
  constructor
  · simp
  · intro b hb
    obtain ⟨r, hr, hrb⟩ := List.mem_map.mp hb
    have hc := of_decide_eq_true (List.mem_filter.mp hr).2
    have : sentRow p r = { r with scheduled_for := farFuture } := by
      unfold sentRow
      rw [if_pos ⟨hc.2, hc.1⟩]
    rw [← hrb]
    simp only [Function.comp_apply, this]

theorem sps_IdsNodup (p : String) (s : Store) (h : IdsNodup s) :
    IdsNodup (setPendingToSentinel p s) := by
  unfold IdsNodup
  rw [sps_posts, List.map_map]
  rw [show ((fun (r : Post) => r.id) ∘ sentRow p) = (fun (r : Post) => r.id) from
    funext (fun r => sentRow_id p r)]
  exact h

theorem sps_SinglePlatform (p : String) (s : Store) (h : SinglePlatform p s) :
    SinglePlatform p (setPendingToSentinel p s) := by
  intro r hr hrp
  rw [sps_posts] at hr
  obtain ⟨r0, hr0, hr0e⟩ := List.mem_map.mp hr
  subst hr0e
  rw [sentRow_status] at hrp
  rw [sentRow_platform]
  exact h r0 hr0 hrp

theorem sps_UniqES (p : String) (s : Store) : UniqES p (setPendingToSentinel p s) := by
  intro u hu huff
  rw [sps_pendingTimes] at hu
  exact absurd (List.eq_of_mem_replicate hu) huff

theorem sps_rows (p : String) (s : Store) (id : Nat)
    (h : ∃ r ∈ s.posts, r.id = id ∧ r.status = Status.pending ∧ r.platform = p) :
    ∃ r ∈ (setPendingToSentinel p s).posts, r.id = id ∧ r.status = Status.pending ∧
      r.platform = p ∧ r.scheduled_for = farFuture := by
  obtain ⟨r, hr, hid, hp, hpl⟩ := h
  refine ⟨sentRow p r, ?_, ?_, ?_, ?_, ?_⟩
  · rw [sps_posts]
    exact List.mem_map.mpr ⟨r, hr, rfl⟩
  · rw [sentRow_id]; exact hid
  · rw [sentRow_status]; exact hp
  · rw [sentRow_platform]; exact hpl
  · unfold sentRow
    rw [if_pos ⟨hpl, hp⟩]

theorem redistLoop_spec (p : String) (l : List Nat) : ∀ (acc : Nat) (st : Store),
    WFslots st → IdsNodup st → UniqES p st → l.Nodup →
    (∀ id ∈ l, ∃ r ∈ st.posts, r.id = id ∧ r.status = Status.pending ∧
      r.platform = p ∧ r.scheduled_for = farFuture) →
    ∃ k st', redistLoop p l acc st = Except.ok (acc + k, st') ∧
      UniqES p st' ∧ IdsNodup st' ∧ st'.slots = st.slots ∧ k ≤ l.length ∧
      offSentinel p st' = offSentinel p st + k ∧
      onSentinel p st' + k = onSentinel p st ∧
      (SinglePlatform p st → SinglePlatform p st') := by
  induction l with
  | nil =>
    intro acc st hwf hids hu hnd hrows
    refine ⟨0, st, ?_, hu, hids, rfl, Nat.zero_le _, ?_, ?_, fun h => h⟩
    · rw [Nat.add_zero]; rfl
    · omega
    · omega
  | cons id rest ih =>
    intro acc st hwf hids hu hnd hrows
    obtain ⟨r0, hr0, hr0id, hr0p, hr0pl, hr0ff⟩ := hrows id (List.mem_cons_self id rest)
    have hff_mem : farFuture ∈ pendingTimes p st := by
      unfold pendingTimes
      exact List.mem_map.mpr
        ⟨r0, List.mem_filter.mpr ⟨hr0, decide_eq_true ⟨hr0p, hr0pl⟩⟩, hr0ff⟩
    have halloc := alloc_ok_head p st hwf
    cases hl : (legalCandidates p st).head? with
    | none =>
      have hok : get_next_available_slot p st = Except.ok none := by rw [halloc, hl]
      obtain ⟨k, st', hrun, hu', hids', hsl', hk, hoff, hon, hsp⟩ :=
        ih acc st hwf hids hu (List.nodup_cons.mp hnd).2
          (fun i hi => hrows i (List.mem_cons_of_mem id hi))
      refine ⟨k, st', ?_, hu', hids', hsl', Nat.le_succ_of_le hk, hoff, hon, hsp⟩
      simp only [redistLoop, hok, Except.bind, Option.elim]
      exact hrun
    | some t =>
      have hok : get_next_available_slot p st = Except.ok (some t) := by rw [halloc, hl]
      have hprops := alloc_some_props p st t hwf hok
      have htnm : t ∉ pendingTimes p st := hprops.2.1
      have htff : t ≠ farFuture := fun hc => htnm (hc ▸ hff_mem)
      have hwf1 : WFslots (update_scheduled_post_time id t st).1 :=
        WFslots_of_slots_eq st _ (update_time_slots id t st) hwf
      have hids1 : IdsNodup (update_scheduled_post_time id t st).1 :=
        update_time_IdsNodup id t st hids
      have hu1 : UniqES p (update_scheduled_post_time id t st).1 :=
        UniqES_update p st id t hids hu htnm
      obtain ⟨L1, L2, hold, hnew⟩ :=
        update_pendingTimes_split p st id t hids r0 hr0 hr0id hr0p hr0pl
      have hoff1 : offSentinel p (update_scheduled_post_time id t st).1 =
          offSentinel p st + 1 := by
        unfold offSentinel
        rw [hnew, hold, hr0ff, length_filter_mid, length_filter_mid,
          if_pos (decide_eq_true htff), if_neg (by simp)]
      have hon1 : onSentinel p (update_scheduled_post_time id t st).1 + 1 =
          onSentinel p st := by
        unfold onSentinel
        rw [hnew, hold, hr0ff, length_filter_mid, length_filter_mid,
          if_neg (by simp [htff]), if_pos (by simp)]
      have hrows1 : ∀ i ∈ rest, ∃ r ∈ (update_scheduled_post_time id t st).1.posts,
          r.id = i ∧ r.status = Status.pending ∧ r.platform = p ∧
          r.scheduled_for = farFuture := by
        intro i hi
        obtain ⟨r, hr, hrid, hrp, hrpl, hrff⟩ := hrows i (List.mem_cons_of_mem id hi)
        have hne : r.id ≠ id := by
          intro hc
          have hie : i = id := by rw [← hrid, hc]
          exact (List.nodup_cons.mp hnd).1 (hie ▸ hi)
        refine ⟨r, ?_, hrid, hrp, hrpl, hrff⟩
        rw [update_time_posts]
        exact List.mem_map.mpr ⟨r, hr, updRow_ne id t r hne⟩
      obtain ⟨k, st', hrun, hu', hids', hsl', hk, hoff, hon, hsp⟩ :=
        ih (acc + 1) (update_scheduled_post_time id t st).1 hwf1 hids1 hu1
          (List.nodup_cons.mp hnd).2 hrows1
      have heq : acc + 1 + k = acc + (k + 1) := by omega
      rw [heq] at hrun
      refine ⟨k + 1, st', ?_, hu', hids', ?_, ?_, ?_, ?_, ?_⟩
      · simp only [redistLoop, hok, Except.bind, Option.elim]
        exact hrun
      · rw [hsl']
        exact update_time_slots id t st
      · simp only [List.length_cons]
        omega
      · rw [hoff, hoff1]
        omega
      · omega
      · intro hsp0
        exact hsp (update_time_SinglePlatform p id t st hsp0)

theorem redistribute_spec (p : String) (s : Store) (hwf : WFslots s) (hids : IdsNodup s) :
    ∃ k s', redistribute_scheduled_posts p s = Except.ok (k, s') ∧
      UniqES p s' ∧ IdsNodup s' ∧ s'.slots = s.slots ∧
      k ≤ (pendingTimes p s).length ∧
      offSentinel p s' = k ∧
      onSentinel p s' = (pendingTimes p s).length - k ∧
      (SinglePlatform p s → SinglePlatform p s') := by
  have hfcongr : s.posts.filter (fun r => decide (r.platform = p ∧ r.status = Status.pending)) =
      s.posts.filter (fun r => decide (r.status = Status.pending ∧ r.platform = p)) := by
    apply List.filter_congr
    intro r _
    apply decide_eq_decide.mpr
    exact and_comm
  have hn : (pendingTimes p s).length =
      (s.posts.filter (fun r => decide (r.platform = p ∧ r.status = Status.pending))).length := by
    unfold pendingTimes
    rw [hfcongr, List.length_map]
  have hperm : (List.insertionSort createdLE (s.posts.filter
      (fun r => decide (r.platform = p ∧ r.status = Status.pending)))).Perm
      (s.posts.filter (fun r => decide (r.platform = p ∧ r.status = Status.pending))) :=
    List.perm_insertionSort createdLE _
  by_cases hemp : ((List.insertionSort createdLE (s.posts.filter
      (fun r => decide (r.platform = p ∧ r.status = Status.pending)))).map
      (fun r => r.id)).isEmpty
  · have hsort_nil : List.insertionSort createdLE (s.posts.filter
        (fun r => decide (r.platform = p ∧ r.status = Status.pending))) = [] := by
      have := List.isEmpty_iff.mp hemp
      exact List.map_eq_nil.mp this
    have hf_nil : s.posts.filter
        (fun r => decide (r.platform = p ∧ r.status = Status.pending)) = [] := by
      have := hperm
      rw [hsort_nil] at this
      exact (List.Perm.nil_eq this).symm
    have hpt_nil : pendingTimes p s = [] := by
      unfold pendingTimes
      rw [← hfcongr, hf_nil]
      rfl
    have hred : redistribute_scheduled_posts p s = Except.ok (0, s) := by
      simp only [redistribute_scheduled_posts]
      rw [if_pos hemp]
    refine ⟨0, s, hred, ?_, hids, rfl, Nat.zero_le _, ?_, ?_, fun h => h⟩
    · intro u hu _
      rw [hpt_nil] at hu
      exact absurd hu (List.not_mem_nil u)
    · unfold offSentinel
      rw [hpt_nil]
      rfl
    · unfold onSentinel
      rw [hpt_nil]
      rfl
  · have hIdsNd : ((List.insertionSort createdLE (s.posts.filter
        (fun r => decide (r.platform = p ∧ r.status = Status.pending)))).map
        (fun r => r.id)).Nodup := by
      apply (List.Perm.nodup_iff (hperm.map (fun r => r.id))).mpr
      exact List.Nodup.sublist (List.Sublist.map _ (List.filter_sublist _)) hids
    have hmem : ∀ i ∈ (List.insertionSort createdLE (s.posts.filter
        (fun r => decide (r.platform = p ∧ r.status = Status.pending)))).map
        (fun r => r.id),
        ∃ r ∈ s.posts, r.id = i ∧ r.status = Status.pending ∧ r.platform = p := by
      intro i hi
      obtain ⟨r, hr, hre⟩ := List.mem_map.mp hi
      have hrf := hperm.mem_iff.mp hr
      have hc := of_decide_eq_true (List.mem_filter.mp hrf).2
      exact ⟨r, (List.mem_filter.mp hrf).1, hre, hc.2, hc.1⟩
    have hrows : ∀ i ∈ (List.insertionSort createdLE (s.posts.filter
        (fun r => decide (r.platform = p ∧ r.status = Status.pending)))).map
        (fun r => r.id),
        ∃ r ∈ (setPendingToSentinel p s).posts, r.id = i ∧ r.status = Status.pending ∧
          r.platform = p ∧ r.scheduled_for = farFuture :=
      fun i hi => sps_rows p s i (hmem i hi)
    have hwf1 : WFslots (setPendingToSentinel p s) :=
      WFslots_of_slots_eq s _ (sps_slots p s) hwf
    obtain ⟨k, st', hrun, hu', hids', hsl', hk, hoff, hon, hsp⟩ :=
      redistLoop_spec p _ 0 (setPendingToSentinel p s) hwf1 (sps_IdsNodup p s hids)
        (sps_UniqES p s) hIdsNd hrows
    have hred : redistribute_scheduled_posts p s =
        redistLoop p ((List.insertionSort createdLE (s.posts.filter
          (fun r => decide (r.platform = p ∧ r.status = Status.pending)))).map
          (fun r => r.id)) 0 (setPendingToSentinel p s) := by
      simp only [redistribute_scheduled_posts]
      rw [if_neg hemp]
    have hoff1 : offSentinel p (setPendingToSentinel p s) = 0 := by
      unfold offSentinel
      rw [sps_pendingTimes]
      rw [List.filter_eq_nil_iff.mpr]
      · rfl
      · intro a ha
        have := List.eq_of_mem_replicate ha
        simp [this]
    have hon1 : onSentinel p (setPendingToSentinel p s) = (pendingTimes p s).length := by
      unfold onSentinel
      rw [sps_pendingTimes]
      rw [List.filter_eq_self.mpr]
      · exact List.length_replicate _ _
      · intro a ha
        have := List.eq_of_mem_replicate ha
        simp [this]
    have hklen : ((List.insertionSort createdLE (s.posts.filter
        (fun r => decide (r.platform = p ∧ r.status = Status.pending)))).map
        (fun r => r.id)).length = (pendingTimes p s).length := by
      rw [List.length_map, hperm.length_eq, hn]
    refine ⟨k, st', ?_, hu', hids', ?_, ?_, ?_, ?_, fun h => hsp (sps_SinglePlatform p s h)⟩
    · rw [hred]
      rw [show (0 : Nat) + k = k from Nat.zero_add k] at hrun
      exact hrun
    · rw [hsl']
      exact sps_slots p s
    · rw [← hklen]
      exact hk
    · rw [hoff, hoff1]
      omega
    · rw [hon1] at hon
      omega

theorem rows_length_eq (s : Store) (ids : List Nat) (hids : IdsNodup s)
    (hnd : ids.Nodup) (hpend : ∀ id ∈ ids, isPendingId s id) :
    (s.posts.filter (fun r => decide (r.id ∈ ids ∧ r.status = Status.pending))).length =
      ids.length := by
  have := (selRows_ids_perm s ids hids hnd hpend).length_eq
  rw [List.length_map] at this
  exact this

theorem reorder_main (s : Store) (ids : List Nat) (hids : IdsNodup s)
    (hnd : ids.Nodup) (hlen2 : 2 ≤ ids.length)
    (hpend : ∀ id ∈ ids, isPendingId s id) :
    (reorder_scheduled_posts ids s).1 = assignTimes ids
      (List.insertionSort (· ≤ ·) ((s.posts.filter
        (fun r => decide (r.id ∈ ids ∧ r.status = Status.pending))).map
        (fun r => r.scheduled_for))) s := by
  have hrl := rows_length_eq s ids hids hnd hpend
  simp only [reorder_scheduled_posts]
  rw [if_neg (by omega), if_neg (by omega)]

theorem id_inj (s : Store) (hids : IdsNodup s) (r0 r1 : Post)
    (h0 : r0 ∈ s.posts) (h1 : r1 ∈ s.posts) (heq : r0.id = r1.id) : r0 = r1 :=
  List.inj_on_of_nodup_map hids h0 h1 heq

theorem find?_zip_isSome (ids times : List Nat) (key : Nat)
    (hmem : key ∈ ids) (hlen : ids.length = times.length) :
    ∃ q, (ids.zip times).find? (fun q => q.1 == key) = some q := by
  have hfst : (ids.zip times).map Prod.fst = ids :=
    List.map_fst_zip ids times (le_of_eq hlen)
  have hex : ∃ q ∈ ids.zip times, q.1 = key := by
    rw [← hfst] at hmem
    obtain ⟨q, hq, hq'⟩ := List.mem_map.mp hmem
    exact ⟨q, hq, hq'⟩
  cases hf : (ids.zip times).find? (fun q => q.1 == key) with
  | none =>
    obtain ⟨q, hq, hq'⟩ := hex
    have := List.find?_eq_none.mp hf q hq
    simp [hq'] at this
  | some q => exact ⟨q, rfl⟩

theorem reassign_sched_of_find (ids times : List Nat) (r : Post) (q : Nat × Nat)
    (hf : (ids.zip times).find? (fun q => q.1 == r.id) = some q)
    (hp : r.status = Status.pending) :
    (reassign ids times r).scheduled_for = q.2 := by
  unfold reassign
  rw [hf]
  simp only [Option.elim, if_pos hp]

theorem two_mem_le_length {α : Type} (l : List α) (a b : α) (ha : a ∈ l) (hb : b ∈ l)
    (hne : a ≠ b) : 2 ≤ l.length := by
  obtain ⟨s1, t1, rfl⟩ := List.append_of_mem ha
  rw [List.mem_append, List.mem_cons] at hb
  rcases hb with h | h | h
  · have h1 : 0 < s1.length := List.length_pos.mpr (List.ne_nil_of_mem h)
    rw [List.length_append, List.length_cons]
    omega
  · exact absurd h.symm hne
  · have h1 : 0 < t1.length := List.length_pos.mpr (List.ne_nil_of_mem h)
    rw [List.length_append, List.length_cons]
    omega

/-- Ordering half of move-to-top, over an abstract partition `sel ++ oth`
of the pending rows: after assigning the sorted ladder to `sel ++ oth` in
order, every selected row's timestamp is at most every unselected row's. -/
theorem assign_top_ordering (s : Store) (idset : List Nat) (sel oth : List Post)
    (AT : List Nat)
    (hNd : ((sel ++ oth).map (fun r => r.id)).Nodup)
    (hselmem : ∀ r ∈ sel, r.id ∈ idset)
    (hothmem : ∀ r ∈ oth, r.id ∉ idset)
    (hlen : ((sel ++ oth).map (fun r => r.id)).length = AT.length)
    (hsorted : List.Sorted (· ≤ ·) AT)
    (hall : ∀ r ∈ s.posts, r.status = Status.pending → r ∈ sel ++ oth) :
    ∀ r1 ∈ (assignTimes ((sel ++ oth).map (fun r => r.id)) AT s).posts,
    ∀ r2 ∈ (assignTimes ((sel ++ oth).map (fun r => r.id)) AT s).posts,
      r1.status = Status.pending → r2.status = Status.pending →
      r1.id ∈ idset → r2.id ∉ idset → r1.scheduled_for ≤ r2.scheduled_for := by
  intro r1f hr1f r2f hr2f hp1 hp2 h1 h2
  rw [assignTimes_posts _ _ _ hNd] at hr1f hr2f
  obtain ⟨r1, hr1, hr1e⟩ := List.mem_map.mp hr1f
  obtain ⟨r2, hr2, hr2e⟩ := List.mem_map.mp hr2f
  have hid1 : r1.id = r1f.id := by rw [← hr1e, reassign_id]
  have hid2 : r2.id = r2f.id := by rw [← hr2e, reassign_id]
  have hp1' : r1.status = Status.pending := by
    rw [← hr1e, reassign_status] at hp1
    exact hp1
  have hp2' : r2.status = Status.pending := by
    rw [← hr2e, reassign_status] at hp2
    exact hp2
  have hsellen : sel.length ≤ AT.length := by
    rw [List.length_map, List.length_append] at hlen
    omega
  have htlen : (AT.take sel.length).length = (sel.map (fun r => r.id)).length := by
    rw [List.length_take, List.length_map, Nat.min_eq_left hsellen]
  have hzipsplit : (((sel ++ oth).map (fun r => r.id)).zip AT) =
      ((sel.map (fun r => r.id)).zip (AT.take sel.length)) ++
        ((oth.map (fun r => r.id)).zip (AT.drop sel.length)) := by
    conv =>
      lhs
      rw [List.map_append, ← List.take_append_drop sel.length AT]
    exact List.zip_append htlen.symm
  -- r1 is a selected row, r2 an unselected one
  have hmem1 : r1 ∈ sel := by
    rcases List.mem_append.mp (hall r1 hr1 hp1') with h | h
    · exact h
    · exact absurd (hid1 ▸ h1) (hothmem r1 h)
  have hmem2 : r2 ∈ oth := by
    rcases List.mem_append.mp (hall r2 hr2 hp2') with h | h
    · exact absurd (hselmem r2 h) (hid2 ▸ h2)
    · exact h
  have hin1 : r1.id ∈ (sel ++ oth).map (fun r => r.id) :=
    List.mem_map.mpr ⟨r1, List.mem_append.mpr (Or.inl hmem1), rfl⟩
  have hin2 : r2.id ∈ (sel ++ oth).map (fun r => r.id) :=
    List.mem_map.mpr ⟨r2, List.mem_append.mpr (Or.inr hmem2), rfl⟩
  obtain ⟨q1, hq1⟩ := find?_zip_isSome _ AT r1.id hin1 hlen
  obtain ⟨q2, hq2⟩ := find?_zip_isSome _ AT r2.id hin2 hlen
  have hv1 : r1f.scheduled_for = q1.2 := by
    rw [← hr1e]
    exact reassign_sched_of_find _ AT r1 q1 hq1 hp1'
  have hv2 : r2f.scheduled_for = q2.2 := by
    rw [← hr2e]
    exact reassign_sched_of_find _ AT r2 q2 hq2 hp2'
  have hq1k : q1.1 = r1.id := by
    have := List.find?_some hq1
    simpa using this
  have hq2k : q2.1 = r2.id := by
    have := List.find?_some hq2
    simpa using this
  have hq1m := List.mem_of_find?_eq_some hq1
  have hq2m := List.mem_of_find?_eq_some hq2
  rw [hzipsplit, List.mem_append] at hq1m hq2m
  have hq1sel : q1 ∈ (sel.map (fun r => r.id)).zip (AT.take sel.length) := by
    rcases hq1m with h | h
    · exact h
    · exfalso
      have hk : q1.1 ∈ oth.map (fun r => r.id) := (List.of_mem_zip h).1
      obtain ⟨ro, hro, hroe⟩ := List.mem_map.mp hk
      exact hothmem ro hro (by rw [hroe, hq1k, hid1]; exact h1)
  have hq2oth : q2 ∈ (oth.map (fun r => r.id)).zip (AT.drop sel.length) := by
    rcases hq2m with h | h
    · exfalso
      have hk : q2.1 ∈ sel.map (fun r => r.id) := (List.of_mem_zip h).1
      obtain ⟨rs, hrs, hrse⟩ := List.mem_map.mp hk
      apply h2
      rw [← hid2, ← hq2k, ← hrse]
      exact hselmem rs hrs
    · exact h
  have hv1m : q1.2 ∈ AT.take sel.length := (List.of_mem_zip hq1sel).2
  have hv2m : q2.2 ∈ AT.drop sel.length := (List.of_mem_zip hq2oth).2
  have hsorted' : List.Pairwise (· ≤ ·) (AT.take sel.length ++ AT.drop sel.length) := by
    rw [List.take_append_drop]
    exact hsorted
  have hcross := (List.pairwise_append.mp hsorted').2.2 q1.2 hv1m q2.2 hv2m
  rw [hv1, hv2]
  exact hcross

theorem move_top_spec (s : Store) (ids : List Nat) (hids : IdsNodup s) :
    ((allPendingTimes (move_posts_to_position ids "top" s).1).Perm (allPendingTimes s)) ∧
    (∀ r1 ∈ (move_posts_to_position ids "top" s).1.posts,
      ∀ r2 ∈ (move_posts_to_position ids "top" s).1.posts,
      r1.status = Status.pending → r2.status = Status.pending →
      r1.id ∈ ids → r2.id ∉ ids → r1.scheduled_for ≤ r2.scheduled_for) := by
  by_cases hids_emp : ids.isEmpty
  · have hmv : (move_posts_to_position ids "top" s).1 = s := by
      simp only [move_posts_to_position]
      rw [if_pos hids_emp]
    rw [hmv]
    refine ⟨List.Perm.refl _, ?_⟩
    intro r1 _ _ _ _ _ h1 _
    rw [List.isEmpty_iff.mp hids_emp] at h1
    exact absurd h1 (List.not_mem_nil r1.id)
  · have hAPperm : (List.insertionSort schedLE (s.posts.filter
        (fun r => decide (r.status = Status.pending)))).Perm
        (s.posts.filter (fun r => decide (r.status = Status.pending))) :=
      List.perm_insertionSort schedLE _
    by_cases hlen2 : (List.insertionSort schedLE (s.posts.filter
        (fun r => decide (r.status = Status.pending)))).length < 2
    · have hmv : (move_posts_to_position ids "top" s).1 = s := by
        simp only [move_posts_to_position]
        rw [if_neg hids_emp, if_pos hlen2]
      rw [hmv]
      refine ⟨List.Perm.refl _, ?_⟩
      intro r1 hr1 r2 hr2 hp1 hp2 h1 h2
      have hm1 : r1 ∈ s.posts.filter (fun r => decide (r.status = Status.pending)) :=
        List.mem_filter.mpr ⟨hr1, decide_eq_true hp1⟩
      have hm2 : r2 ∈ s.posts.filter (fun r => decide (r.status = Status.pending)) :=
        List.mem_filter.mpr ⟨hr2, decide_eq_true hp2⟩
      have hne : r1 ≠ r2 := fun hc => h2 (hc ▸ h1)
      have := two_mem_le_length _ r1 r2 hm1 hm2 hne
      rw [← hAPperm.length_eq] at this
      omega
    · by_cases hsel_emp : ((List.insertionSort schedLE (s.posts.filter
          (fun r => decide (r.status = Status.pending)))).filter
          (fun r => decide (r.id ∈ ids))).isEmpty
      · have hmv : (move_posts_to_position ids "top" s).1 = s := by
          simp only [move_posts_to_position]
          rw [if_neg hids_emp, if_neg hlen2, if_pos hsel_emp]
        rw [hmv]
        refine ⟨List.Perm.refl _, ?_⟩
        intro r1 hr1 r2 hr2 hp1 hp2 h1 h2
        have hm1 : r1 ∈ (List.insertionSort schedLE (s.posts.filter
            (fun r => decide (r.status = Status.pending)))) :=
          hAPperm.mem_iff.mpr (List.mem_filter.mpr ⟨hr1, decide_eq_true hp1⟩)
        have : r1 ∈ (List.insertionSort schedLE (s.posts.filter
            (fun r => decide (r.status = Status.pending)))).filter
            (fun r => decide (r.id ∈ ids)) :=
          List.mem_filter.mpr ⟨hm1, decide_eq_true h1⟩
        rw [List.isEmpty_iff.mp hsel_emp] at this
        exact absurd this (List.not_mem_nil r1)
      · -- main path
        have hmv : (move_posts_to_position ids "top" s).1 =
            assignTimes ((((List.insertionSort schedLE (s.posts.filter
                (fun r => decide (r.status = Status.pending)))).filter
                (fun r => decide (r.id ∈ ids))) ++
              ((List.insertionSort schedLE (s.posts.filter
                (fun r => decide (r.status = Status.pending)))).filter
                (fun r => decide (r.id ∉ ids)))).map (fun r => r.id))
              (List.insertionSort (· ≤ ·) ((List.insertionSort schedLE (s.posts.filter
                (fun r => decide (r.status = Status.pending)))).map
                (fun r => r.scheduled_for))) s := by
          simp only [move_posts_to_position]
          rw [if_neg hids_emp, if_neg hlen2, if_neg hsel_emp, if_pos trivial]
        set P := s.posts.filter (fun r => decide (r.status = Status.pending)) with hPdef
        set AP := List.insertionSort schedLE P with hAPdef
        set sel := AP.filter (fun r => decide (r.id ∈ ids)) with hseldef
        set oth := AP.filter (fun r => decide (r.id ∉ ids)) with hothdef
        set AT := List.insertionSort (· ≤ ·) (AP.map (fun r => r.scheduled_for)) with hATdef
        have hothcong : oth = AP.filter (fun r => !decide (r.id ∈ ids)) := by
          rw [hothdef]
          apply List.filter_congr
          intro r _
          by_cases h : r.id ∈ ids <;> simp [h]
        have hNOperm : (sel ++ oth).Perm AP := by
          rw [hothcong, hseldef]
          exact List.filter_append_perm _ AP
        have hNOP : (sel ++ oth).Perm P := hNOperm.trans hAPperm
        have hNd : ((sel ++ oth).map (fun r => r.id)).Nodup := by
          apply (List.Perm.nodup_iff (hNOP.map (fun r => r.id))).mpr
          exact List.Nodup.sublist (List.Sublist.map _ (List.filter_sublist _)) hids
        have hpendNO : ∀ r ∈ sel ++ oth, r ∈ s.posts ∧ r.status = Status.pending := by
          intro r hr
          have := List.mem_filter.mp (hNOP.mem_iff.mp hr)
          exact ⟨this.1, of_decide_eq_true this.2⟩
        have hpend' : ∀ i ∈ (sel ++ oth).map (fun r => r.id), isPendingId s i := by
          intro i hi
          obtain ⟨r, hr, hre⟩ := List.mem_map.mp hi
          obtain ⟨hr1, hr2⟩ := hpendNO r hr
          exact ⟨r, hr1, hre, hr2⟩
        have hATlen : AT.length = AP.length := by
          rw [hATdef, (List.perm_insertionSort _ _).length_eq, List.length_map]
        have hlen : ((sel ++ oth).map (fun r => r.id)).length = AT.length := by
          rw [List.length_map, hNOperm.length_eq, hATlen]
        have hall : ∀ r ∈ s.posts, r.status = Status.pending → r ∈ sel ++ oth := by
          intro r hr hp
          have hrAP : r ∈ AP := hAPperm.mem_iff.mpr
            (List.mem_filter.mpr ⟨hr, decide_eq_true hp⟩)
          by_cases h : r.id ∈ ids
          · exact List.mem_append.mpr (Or.inl
              (List.mem_filter.mpr ⟨hrAP, decide_eq_true h⟩))
          · exact List.mem_append.mpr (Or.inr
              (List.mem_filter.mpr ⟨hrAP, decide_eq_true h⟩))
        have hselmem : ∀ r ∈ sel, r.id ∈ ids := by
          intro r hr
          exact of_decide_eq_true (List.mem_filter.mp hr).2
        have hothmem : ∀ r ∈ oth, r.id ∉ ids := by
          intro r hr
          exact of_decide_eq_true (List.mem_filter.mp hr).2
        have hsorted : List.Sorted (· ≤ ·) AT := List.sorted_insertionSort _ _
        have htimes : AT.Perm ((s.posts.filter (fun r =>
            decide (r.id ∈ (sel ++ oth).map (fun r => r.id) ∧
              r.status = Status.pending))).map (fun r => r.scheduled_for)) := by
          have hfeq : s.posts.filter (fun r =>
              decide (r.id ∈ (sel ++ oth).map (fun r => r.id) ∧
                r.status = Status.pending)) = P := by
            rw [hPdef]
            apply List.filter_congr
            intro r hr
            by_cases hp : r.status = Status.pending
            · simp only [hp, and_true]
              apply decide_eq_decide.mpr
              constructor
              · intro _
                trivial
              · intro _
                exact List.mem_map.mpr ⟨r, hall r hr hp, rfl⟩
            · simp [hp]
          rw [hfeq]
          refine (List.perm_insertionSort _ _).trans ?_
          exact hAPperm.map (fun r => r.scheduled_for)
        constructor
        · rw [hmv]
          exact assignTimes_allPending_perm s ((sel ++ oth).map (fun r => r.id)) AT
            hids hNd hpend' hlen htimes
        · rw [hmv]
          exact assign_top_ordering s ids sel oth AT hNd hselmem hothmem hlen
            hsorted hall

theorem assignTimes_SinglePlatform (p : String) (ids : List Nat) :
    ∀ (times : List Nat) (s : Store), SinglePlatform p s →
      SinglePlatform p (assignTimes ids times s) := by
  induction ids with
  | nil =>
    intro times s h
    cases times with
    | nil => exact h
    | cons t ts => exact h
  | cons id rest ih =>
    intro times s h
    cases times with
    | nil => exact h
    | cons t ts => exact ih ts _ (update_time_SinglePlatform p id t s h)

theorem assignTimes_IdsNodup (ids : List Nat) :
    ∀ (times : List Nat) (s : Store), IdsNodup s → IdsNodup (assignTimes ids times s) := by
  induction ids with
  | nil =>
    intro times s h
    cases times with
    | nil => exact h
    | cons t ts => exact h
  | cons id rest ih =>
    intro times s h
    cases times with
    | nil => exact h
    | cons t ts => exact ih ts _ (update_time_IdsNodup id t s h)

theorem assignTimes_UniqES (p : String) (s : Store) (ids times : List Nat)
    (hSP : SinglePlatform p s) (hids : IdsNodup s) (hNd : ids.Nodup)
    (hpend : ∀ id ∈ ids, isPendingId s id) (hlen : ids.length = times.length)
    (htimes : times.Perm ((s.posts.filter
      (fun r => decide (r.id ∈ ids ∧ r.status = Status.pending))).map
      (fun r => r.scheduled_for)))
    (hU : UniqES p s) : UniqES p (assignTimes ids times s) := by
  have hSP' : SinglePlatform p (assignTimes ids times s) :=
    assignTimes_SinglePlatform p ids times s hSP
  have hperm := assignTimes_allPending_perm s ids times hids hNd hpend hlen htimes
  intro t ht htff
  rw [pendingTimes_eq_all p _ hSP']
  rw [pendingTimes_eq_all p _ hSP'] at ht
  rw [hperm.count_eq]
  rw [← pendingTimes_eq_all p s hSP]
  exact UniqES_count hU t htff

/-- Common core of the move operation for either target order `NO` of the
pending rows. -/
theorem move_NO_perm (s : Store) (NO : List Post) (hids : IdsNodup s)
    (hNOP : NO.Perm (s.posts.filter (fun r => decide (r.status = Status.pending)))) :
    (allPendingTimes (assignTimes (NO.map (fun r => r.id))
      (List.insertionSort (· ≤ ·) ((List.insertionSort schedLE (s.posts.filter
        (fun r => decide (r.status = Status.pending)))).map (fun r => r.scheduled_for))) s)).Perm
      (allPendingTimes s) := by
  have hAPperm : (List.insertionSort schedLE (s.posts.filter
      (fun r => decide (r.status = Status.pending)))).Perm
      (s.posts.filter (fun r => decide (r.status = Status.pending))) :=
    List.perm_insertionSort schedLE _
  have hNd : (NO.map (fun r => r.id)).Nodup := by
    apply (List.Perm.nodup_iff (hNOP.map (fun r => r.id))).mpr
    exact List.Nodup.sublist (List.Sublist.map _ (List.filter_sublist _)) hids
  have hpend' : ∀ i ∈ NO.map (fun r => r.id), isPendingId s i := by
    intro i hi
    obtain ⟨r, hr, hre⟩ := List.mem_map.mp hi
    have := List.mem_filter.mp (hNOP.mem_iff.mp hr)
    exact ⟨r, this.1, hre, of_decide_eq_true this.2⟩
  have hlen : (NO.map (fun r => r.id)).length =
      (List.insertionSort (· ≤ ·) ((List.insertionSort schedLE (s.posts.filter
        (fun r => decide (r.status = Status.pending)))).map
        (fun r => r.scheduled_for))).length := by
    rw [List.length_map, hNOP.length_eq, (List.perm_insertionSort _ _).length_eq,
      List.length_map, hAPperm.length_eq]
  have htimes : (List.insertionSort (· ≤ ·) ((List.insertionSort schedLE (s.posts.filter
      (fun r => decide (r.status = Status.pending)))).map (fun r => r.scheduled_for))).Perm
      ((s.posts.filter (fun r =>
        decide (r.id ∈ NO.map (fun r => r.id) ∧ r.status = Status.pending))).map
        (fun r => r.scheduled_for)) := by
    have hfeq : s.posts.filter (fun r =>
        decide (r.id ∈ NO.map (fun r => r.id) ∧ r.status = Status.pending)) =
        s.posts.filter (fun r => decide (r.status = Status.pending)) := by
      apply List.filter_congr
      intro r hr
      by_cases hp : r.status = Status.pending
      · simp only [hp, and_true]
        apply decide_eq_decide.mpr
        constructor
        · intro _
          trivial
        · intro _
          exact List.mem_map.mpr ⟨r, hNOP.mem_iff.mpr
            (List.mem_filter.mpr ⟨hr, decide_eq_true hp⟩), rfl⟩
      · simp [hp]
    rw [hfeq]
    refine (List.perm_insertionSort _ _).trans ?_
    exact hAPperm.map (fun r => r.scheduled_for)
  exact assignTimes_allPending_perm s (NO.map (fun r => r.id)) _ hids hNd hpend' hlen htimes

/-- Any `move_posts_to_position` call preserves the multiset of pending
timestamps across the whole store. -/
theorem move_any_perm (s : Store) (ids : List Nat) (position : String)
    (hids : IdsNodup s) :
    (allPendingTimes (move_posts_to_position ids position s).1).Perm
      (allPendingTimes s) := by
  by_cases hids_emp : ids.isEmpty
  · have hmv : (move_posts_to_position ids position s).1 = s := by
      simp only [move_posts_to_position]
      rw [if_pos hids_emp]
    rw [hmv]
  · have hAPperm : (List.insertionSort schedLE (s.posts.filter
        (fun r => decide (r.status = Status.pending)))).Perm
        (s.posts.filter (fun r => decide (r.status = Status.pending))) :=
      List.perm_insertionSort schedLE _
    by_cases hlen2 : (List.insertionSort schedLE (s.posts.filter
        (fun r => decide (r.status = Status.pending)))).length < 2
    · have hmv : (move_posts_to_position ids position s).1 = s := by
        simp only [move_posts_to_position]
        rw [if_neg hids_emp, if_pos hlen2]
      rw [hmv]
    · by_cases hsel_emp : ((List.insertionSort schedLE (s.posts.filter
          (fun r => decide (r.status = Status.pending)))).filter
          (fun r => decide (r.id ∈ ids))).isEmpty
      · have hmv : (move_posts_to_position ids position s).1 = s := by
          simp only [move_posts_to_position]
          rw [if_neg hids_emp, if_neg hlen2, if_pos hsel_emp]
        rw [hmv]
      · have hothcong : (List.insertionSort schedLE (s.posts.filter
            (fun r => decide (r.status = Status.pending)))).filter
            (fun r => decide (r.id ∉ ids)) =
            (List.insertionSort schedLE (s.posts.filter
              (fun r => decide (r.status = Status.pending)))).filter
              (fun r => !decide (r.id ∈ ids)) := by
          apply List.filter_congr
          intro r _
          by_cases h : r.id ∈ ids <;> simp [h]
        have hNOtop : (((List.insertionSort schedLE (s.posts.filter
            (fun r => decide (r.status = Status.pending)))).filter
            (fun r => decide (r.id ∈ ids))) ++
            ((List.insertionSort schedLE (s.posts.filter
              (fun r => decide (r.status = Status.pending)))).filter
              (fun r => decide (r.id ∉ ids)))).Perm
            (s.posts.filter (fun r => decide (r.status = Status.pending))) := by
          rw [hothcong]
          exact (List.filter_append_perm _ _).trans hAPperm
        by_cases hpos : position = "top"
        · have hmv : (move_posts_to_position ids position s).1 =
              assignTimes ((((List.insertionSort schedLE (s.posts.filter
                  (fun r => decide (r.status = Status.pending)))).filter
                  (fun r => decide (r.id ∈ ids))) ++
                ((List.insertionSort schedLE (s.posts.filter
                  (fun r => decide (r.status = Status.pending)))).filter
                  (fun r => decide (r.id ∉ ids)))).map (fun r => r.id))
                (List.insertionSort (· ≤ ·) ((List.insertionSort schedLE (s.posts.filter
                  (fun r => decide (r.status = Status.pending)))).map
                  (fun r => r.scheduled_for))) s := by
            simp only [move_posts_to_position]
            rw [if_neg hids_emp, if_neg hlen2, if_neg hsel_emp, if_pos hpos]
          rw [hmv]
          exact move_NO_perm s _ hids hNOtop
        · have hmv : (move_posts_to_position ids position s).1 =
              assignTimes ((((List.insertionSort schedLE (s.posts.filter
                  (fun r => decide (r.status = Status.pending)))).filter
                  (fun r => decide (r.id ∉ ids))) ++
                ((List.insertionSort schedLE (s.posts.filter
                  (fun r => decide (r.status = Status.pending)))).filter
                  (fun r => decide (r.id ∈ ids)))).map (fun r => r.id))
                (List.insertionSort (· ≤ ·) ((List.insertionSort schedLE (s.posts.filter
                  (fun r => decide (r.status = Status.pending)))).map
                  (fun r => r.scheduled_for))) s := by
            simp only [move_posts_to_position]
            rw [if_neg hids_emp, if_neg hlen2, if_neg hsel_emp, if_neg hpos]
          rw [hmv]
          exact move_NO_perm s _ hids (List.perm_append_comm.trans hNOtop)

theorem UniqES_of_perm (p : String) (s s' : Store) (hSP' : SinglePlatform p s')
    (hSP : SinglePlatform p s)
    (hperm : (allPendingTimes s').Perm (allPendingTimes s)) (hU : UniqES p s) :
    UniqES p s' := by
  intro t ht htff
  rw [pendingTimes_eq_all p _ hSP']
  rw [pendingTimes_eq_all p _ hSP'] at ht
  rw [hperm.count_eq, ← pendingTimes_eq_all p s hSP]
  exact UniqES_count hU t htff

theorem reorder_shape (ids : List Nat) (s : Store) :
    (reorder_scheduled_posts ids s).1 = s ∨
      ∃ times, (reorder_scheduled_posts ids s).1 = assignTimes ids times s := by
  simp only [reorder_scheduled_posts]
  by_cases h1 : ids.length < 2
  · rw [if_pos h1]
    exact Or.inl rfl
  · rw [if_neg h1]
    by_cases h2 : (s.posts.filter
        (fun r => decide (r.id ∈ ids ∧ r.status = Status.pending))).length < 2
    · rw [if_pos h2]
      exact Or.inl rfl
    · rw [if_neg h2]
      exact Or.inr ⟨_, rfl⟩

theorem move_shape (ids : List Nat) (position : String) (s : Store) :
    (move_posts_to_position ids position s).1 = s ∨
      ∃ ids' times', (move_posts_to_position ids position s).1 =
        assignTimes ids' times' s := by
  simp only [move_posts_to_position]
  by_cases h1 : ids.isEmpty
  · rw [if_pos h1]
    exact Or.inl rfl
  · rw [if_neg h1]
    by_cases h2 : (List.insertionSort schedLE (s.posts.filter
        (fun r => decide (r.status = Status.pending)))).length < 2
    · rw [if_pos h2]
      exact Or.inl rfl
    · rw [if_neg h2]
      by_cases h3 : ((List.insertionSort schedLE (s.posts.filter
          (fun r => decide (r.status = Status.pending)))).filter
          (fun r => decide (r.id ∈ ids))).isEmpty
      · rw [if_pos h3]
        exact Or.inl rfl
      · rw [if_neg h3]
        by_cases h4 : position = "top"
        · rw [if_pos h4]
          exact Or.inr ⟨_, _, rfl⟩
        · rw [if_neg h4]
          exact Or.inr ⟨_, _, rfl⟩

theorem reorder_slots (ids : List Nat) (s : Store) :
    (reorder_scheduled_posts ids s).1.slots = s.slots := by
  rcases reorder_shape ids s with h | ⟨times, h⟩
  · rw [h]
  · rw [h]
    exact assignTimes_slots ids times s

theorem reorder_IdsNodup (ids : List Nat) (s : Store) (hids : IdsNodup s) :
    IdsNodup (reorder_scheduled_posts ids s).1 := by
  rcases reorder_shape ids s with h | ⟨times, h⟩
  · rw [h]; exact hids
  · rw [h]
    exact assignTimes_IdsNodup ids times s hids

theorem reorder_SinglePlatform (p : String) (ids : List Nat) (s : Store)
    (hSP : SinglePlatform p s) : SinglePlatform p (reorder_scheduled_posts ids s).1 := by
  rcases reorder_shape ids s with h | ⟨times, h⟩
  · rw [h]; exact hSP
  · rw [h]
    exact assignTimes_SinglePlatform p ids times s hSP

theorem move_slots (ids : List Nat) (position : String) (s : Store) :
    (move_posts_to_position ids position s).1.slots = s.slots := by
  rcases move_shape ids position s with h | ⟨a, b, h⟩
  · rw [h]
  · rw [h]
    exact assignTimes_slots a b s

theorem move_IdsNodup (ids : List Nat) (position : String) (s : Store)
    (hids : IdsNodup s) : IdsNodup (move_posts_to_position ids position s).1 := by
  rcases move_shape ids position s with h | ⟨a, b, h⟩
  · rw [h]; exact hids
  · rw [h]
    exact assignTimes_IdsNodup a b s hids

theorem move_SinglePlatform (p : String) (ids : List Nat) (position : String) (s : Store)
    (hSP : SinglePlatform p s) :
    SinglePlatform p (move_posts_to_position ids position s).1 := by
  rcases move_shape ids position s with h | ⟨a, b, h⟩
  · rw [h]; exact hSP
  · rw [h]
    exact assignTimes_SinglePlatform p a b s hSP

theorem reorder_UniqES (p : String) (ids : List Nat) (s : Store)
    (hSP : SinglePlatform p s) (hids : IdsNodup s) (hnd : ids.Nodup)
    (hpend : ∀ id ∈ ids, isPendingId s id) (hU : UniqES p s) :
    UniqES p (reorder_scheduled_posts ids s).1 := by
  by_cases h1 : ids.length < 2
  · have h : (reorder_scheduled_posts ids s).1 = s := by
      simp only [reorder_scheduled_posts]
      rw [if_pos h1]
    rw [h]
    exact hU
  · rw [reorder_main s ids hids hnd (by omega) hpend]
    have hrl := rows_length_eq s ids hids hnd hpend
    apply assignTimes_UniqES p s ids _ hSP hids hnd hpend _ _ hU
    · rw [(List.perm_insertionSort _ _).length_eq, List.length_map, hrl]
    · exact List.perm_insertionSort _ _

theorem move_UniqES (p : String) (ids : List Nat) (position : String) (s : Store)
    (hSP : SinglePlatform p s) (hids : IdsNodup s) (hU : UniqES p s) :
    UniqES p (move_posts_to_position ids position s).1 :=
  UniqES_of_perm p s _ (move_SinglePlatform p ids position s hSP) hSP
    (move_any_perm s ids position hids) hU

theorem add_pendingTimes (s : Store) (pid : Nat) (p : String) (t created : Nat) :
    pendingTimes p (add_scheduled_post s pid p t created) = pendingTimes p s ++ [t] := by
  unfold pendingTimes add_scheduled_post
  rw [List.filter_append, List.map_append]
  congr 1
  rw [List.filter_cons]
  simp

theorem enqueue_UniqES (p : String) (s : Store) (pid t created : Nat)
    (ht : t ∉ pendingTimes p s) (hU : UniqES p s) :
    UniqES p (add_scheduled_post s pid p t created) := by
  intro u hu huff
  rw [add_pendingTimes]
  rw [add_pendingTimes] at hu
  rw [List.count_append]
  by_cases hut : u = t
  · subst hut
    rw [List.count_eq_zero.mpr ht]
    simp
  · have h1 : ([t] : List Nat).count u = 0 := by
      simp [List.count_cons, hut]
    rw [h1, Nat.add_zero]
    exact UniqES_count hU u huff

theorem enqueue_IdsNodup (s : Store) (pid : Nat) (p : String) (t created : Nat)
    (hids : IdsNodup s) (hfresh : pid ∉ s.posts.map (fun r => r.id)) :
    IdsNodup (add_scheduled_post s pid p t created) := by
  unfold IdsNodup add_scheduled_post
  rw [List.map_append]
  rw [List.nodup_append]
  refine ⟨hids, List.nodup_singleton _, ?_⟩
  intro a ha hb
  simp only [List.map_cons, List.map_nil, List.mem_singleton] at hb
  exact hfresh (hb ▸ ha)

theorem enqueue_SinglePlatform (p : String) (s : Store) (pid t created : Nat)
    (hSP : SinglePlatform p s) :
    SinglePlatform p (add_scheduled_post s pid p t created) := by
  intro r hr hrp
  unfold add_scheduled_post at hr
  rcases List.mem_append.mp hr with h | h
  · exact hSP r h hrp
  · rw [List.mem_singleton] at h
    rw [h]

theorem applyOp_pres (p : String) (s : Store) (op : QOp)
    (hwf : WFslots s) (hids : IdsNodup s) (hSP : SinglePlatform p s)
    (hU : UniqES p s) (hop : GoodOp p s op) :
    WFslots (applyOp p s op) ∧ IdsNodup (applyOp p s op) ∧
      SinglePlatform p (applyOp p s op) ∧ UniqES p (applyOp p s op) := by
  cases op with
  | enqueue pid created =>
    have halloc := alloc_ok_head p s hwf
    cases hl : (legalCandidates p s).head? with
    | none =>
      have hres : applyOp p s (QOp.enqueue pid created) = s := by
        simp only [applyOp, halloc, hl, Except.toOption, Option.elim]
      rw [hres]
      exact ⟨hwf, hids, hSP, hU⟩
    | some t =>
      have hok : get_next_available_slot p s = Except.ok (some t) := by rw [halloc, hl]
      have hres : applyOp p s (QOp.enqueue pid created) =
          add_scheduled_post s pid p t created := by
        simp only [applyOp, hok, Except.toOption, Option.elim]
      have hprops := alloc_some_props p s t hwf hok
      rw [hres]
      refine ⟨WFslots_of_slots_eq s _ rfl hwf, ?_, ?_, ?_⟩
      · exact enqueue_IdsNodup s pid p t created hids hop
      · exact enqueue_SinglePlatform p s pid t created hSP
      · exact enqueue_UniqES p s pid t created hprops.2.1 hU
  | redistribute =>
    obtain ⟨k, s', hrun, hu', hids', hsl', _, _, _, hsp'⟩ := redistribute_spec p s hwf hids
    have hres : applyOp p s QOp.redistribute = s' := by
      simp only [applyOp, hrun, Except.toOption, Option.elim]
    rw [hres]
    exact ⟨WFslots_of_slots_eq s s' hsl' hwf, hids', hsp' hSP, hu'⟩
  | reorder ids =>
    refine ⟨WFslots_of_slots_eq s _ (reorder_slots ids s) hwf,
      reorder_IdsNodup ids s hids, reorder_SinglePlatform p ids s hSP, ?_⟩
    exact reorder_UniqES p ids s hSP hids hop.1 hop.2 hU
  | move ids position =>
    exact ⟨WFslots_of_slots_eq s _ (move_slots ids position s) hwf,
      move_IdsNodup ids position s hids, move_SinglePlatform p ids position s hSP,
      move_UniqES p ids position s hSP hids hU⟩

theorem applyOps_pres (p : String) (ops : List QOp) : ∀ (s : Store),
    WFslots s → IdsNodup s → SinglePlatform p s → UniqES p s →
    GoodTrace p s ops →
    WFslots (applyOps p s ops) ∧ IdsNodup (applyOps p s ops) ∧
      SinglePlatform p (applyOps p s ops) ∧ UniqES p (applyOps p s ops) := by
  induction ops with
  | nil =>
    intro s hwf hids hSP hU _
    exact ⟨hwf, hids, hSP, hU⟩
  | cons op ops ih =>
    intro s hwf hids hSP hU htr
    obtain ⟨h1, h2, h3, h4⟩ := applyOp_pres p s op hwf hids hSP hU htr.1
    exact ih (applyOp p s op) h1 h2 h3 h4 htr.2

theorem processDuePost_eq (oracle : Nat → PubOutcome) (s : Store) (id : Nat) :
    processDuePost oracle s id =
      update_scheduled_post_status id (outcomeStatus (oracle id))
        (outcomeErr (oracle id)) s := by
  unfold processDuePost outcomeStatus outcomeErr
  cases oracle id <;> rfl

theorem statusUpd_step (oracle : Nat → PubOutcome) (i : Nat) (rest : List Nat) (r : Post) :
    statusUpd oracle rest
      (if r.id = i then
        { r with status := outcomeStatus (oracle i), error_message := outcomeErr (oracle i) }
      else r) = statusUpd oracle (i :: rest) r := by
  unfold statusUpd
  by_cases hri : r.id = i
  · by_cases hmem : r.id ∈ rest
    · simp [hri, hmem, List.mem_cons]
    · simp [hri, hmem, List.mem_cons]
  · by_cases hmem : r.id ∈ rest
    · simp [hri, hmem, List.mem_cons]
    · simp [hri, hmem, List.mem_cons]

theorem tick_fold_posts (oracle : Nat → PubOutcome) (ids : List Nat) : ∀ (s : Store),
    (ids.foldl (processDuePost oracle) s).posts = s.posts.map (statusUpd oracle ids) := by
  induction ids with
  | nil =>
    intro s
    rw [List.foldl_nil]
    rw [show statusUpd oracle [] = fun r => r from funext (fun r => by
      unfold statusUpd
      rw [if_neg (List.not_mem_nil r.id)])]
    exact (List.map_id' s.posts).symm
  | cons i rest ih =>
    intro s
    rw [List.foldl_cons, ih, processDuePost_eq]
    rw [show (update_scheduled_post_status i (outcomeStatus (oracle i))
        (outcomeErr (oracle i)) s).posts =
      s.posts.map (fun r => if r.id = i then
        { r with status := outcomeStatus (oracle i),
                 error_message := outcomeErr (oracle i) } else r) from rfl]
    rw [List.map_map]
    apply List.map_congr_left
    intro r _
    exact statusUpd_step oracle i rest r

theorem tick_posts (oracle : Nat → PubOutcome) (s : Store) :
    (scheduled_post_worker_tick oracle s).posts =
      s.posts.map (statusUpd oracle ((get_pending_scheduled_posts s).map (fun r => r.id))) :=
  tick_fold_posts oracle _ s

theorem statusUpd_id (oracle : Nat → PubOutcome) (ids : List Nat) (r : Post) :
    (statusUpd oracle ids r).id = r.id := by
  unfold statusUpd
  split <;> rfl

theorem truncate500_le (e : String) : (truncate500 e).length ≤ 500 := by
  have h : (truncate500 e).length = (e.data.take 500).length := rfl
  rw [h, List.length_take]
  omega

theorem worker_row_status (s : Store) (oracle : Nat → PubOutcome) (r rf : Post)
    (hr : r ∈ s.posts) (hp : r.status = Status.pending) (hdue : r.scheduled_for ≤ s.now)
    (hrf : rf ∈ (scheduled_post_worker_tick oracle s).posts) (hid : rf.id = r.id) :
    rf.status = outcomeStatus (oracle r.id) ∧
      rf.error_message = outcomeErr (oracle r.id) := by
  have hdueid : r.id ∈ (get_pending_scheduled_posts s).map (fun r => r.id) := by
    apply List.mem_map.mpr
    refine ⟨r, ?_, rfl⟩
    unfold get_pending_scheduled_posts
    exact (List.perm_insertionSort schedLE _).mem_iff.mpr
      (List.mem_filter.mpr ⟨hr, decide_eq_true ⟨hp, hdue⟩⟩)
  rw [tick_posts] at hrf
  obtain ⟨r0, hr0, hr0e⟩ := List.mem_map.mp hrf
  have hr0id : r0.id = r.id := by
    rw [← hid, ← hr0e, statusUpd_id]
  have hr0mem : r0.id ∈ (get_pending_scheduled_posts s).map (fun r => r.id) := by
    rw [hr0id]
    exact hdueid
  have : statusUpd oracle ((get_pending_scheduled_posts s).map (fun r => r.id)) r0 =
      { r0 with status := outcomeStatus (oracle r0.id),
                error_message := outcomeErr (oracle r0.id) } := by
    unfold statusUpd
    rw [if_pos hr0mem]
  rw [this] at hr0e
  rw [← hr0e, hr0id]
  exact ⟨rfl, rfl⟩

theorem reorder_snd (ids : List Nat) (s : Store) :
    (reorder_scheduled_posts ids s).2 = true := by
  simp only [reorder_scheduled_posts]
  by_cases h1 : ids.length < 2
  · rw [if_pos h1]
  · rw [if_neg h1]
    by_cases h2 : (s.posts.filter
        (fun r => decide (r.id ∈ ids ∧ r.status = Status.pending))).length < 2
    · rw [if_pos h2]
    · rw [if_neg h2]

theorem move_snd (ids : List Nat) (position : String) (s : Store) :
    (move_posts_to_position ids position s).2 = true := by
  simp only [move_posts_to_position]
  by_cases h1 : ids.isEmpty
  · rw [if_pos h1]
  · rw [if_neg h1]
    by_cases h2 : (List.insertionSort schedLE (s.posts.filter
        (fun r => decide (r.status = Status.pending)))).length < 2
    · rw [if_pos h2]
    · rw [if_neg h2]
      by_cases h3 : ((List.insertionSort schedLE (s.posts.filter
          (fun r => decide (r.status = Status.pending)))).filter
          (fun r => decide (r.id ∈ ids))).isEmpty
      · rw [if_pos h3]
      · rw [if_neg h3]

theorem reorder_unchanged_short (ids : List Nat) (s : Store) (h : ids.length < 2) :
    (reorder_scheduled_posts ids s).1 = s := by
  simp only [reorder_scheduled_posts]
  rw [if_pos h]

theorem reorder_unchanged_rows (ids : List Nat) (s : Store)
    (h : (s.posts.filter (fun r => decide (r.id ∈ ids ∧ r.status = Status.pending))).length < 2) :
    (reorder_scheduled_posts ids s).1 = s := by
  simp only [reorder_scheduled_posts]
  by_cases h1 : ids.length < 2
  · rw [if_pos h1]
  · rw [if_neg h1, if_pos h]

theorem move_unchanged_empty (ids : List Nat) (position : String) (s : Store)
    (h : ids.isEmpty) : (move_posts_to_position ids position s).1 = s := by
  simp only [move_posts_to_position]
  rw [if_pos h]

theorem move_unchanged_short (ids : List Nat) (position : String) (s : Store)
    (h : (List.insertionSort schedLE (s.posts.filter
      (fun r => decide (r.status = Status.pending)))).length < 2) :
    (move_posts_to_position ids position s).1 = s := by
  simp only [move_posts_to_position]
  by_cases h1 : ids.isEmpty
  · rw [if_pos h1]
  · rw [if_neg h1, if_pos h]

theorem move_unchanged_nosel (ids : List Nat) (position : String) (s : Store)
    (h : ((List.insertionSort schedLE (s.posts.filter
      (fun r => decide (r.status = Status.pending)))).filter
      (fun r => decide (r.id ∈ ids))).isEmpty) :
    (move_posts_to_position ids position s).1 = s := by
  simp only [move_posts_to_position]
  by_cases h1 : ids.isEmpty
  · rw [if_pos h1]
  · rw [if_neg h1]
    by_cases h2 : (List.insertionSort schedLE (s.posts.filter
        (fun r => decide (r.status = Status.pending)))).length < 2
    · rw [if_pos h2]
    · rw [if_neg h2, if_pos h]

/-- C1 counterexample: starting from a state satisfying per-platform
pending-timestamp uniqueness (two pending LinkedIn rows at 1000 and 2000)
with no enabled slots, one `redistribute_scheduled_posts` call parks both
rows at the identical far-future sentinel '9999-12-31T23:59:59', so two
pending rows of the same platform share `scheduled_for` — the claim as
stated is false. -/
theorem C1_counterexample :
    (pendingTimes "linkedin" twoPendingNoSlots).Nodup ∧
    redistribute_scheduled_posts "linkedin" twoPendingNoSlots =
      Except.ok (0, twoPendingAfter) ∧
    ¬ (pendingTimes "linkedin" twoPendingAfter).Nodup := by decide

/-- C1 amended: for a platform P, in a store whose pending rows all belong
to P, with range-valid enabled slots and unique row ids, after any
sequence of slot-allocating enqueues (with fresh ids), redistributions,
reorders of distinct pending ids, and moves, no two pending rows of P
share a `scheduled_for` except that rows a partial redistribution left at
the far-future sentinel may coincide there. -/
theorem C1_amended_uniqueness (p : String) (s : Store) (ops : List QOp)
    (hwf : WFslots s) (hids : IdsNodup s) (hSP : SinglePlatform p s)
    (hU : UniqES p s) (htr : GoodTrace p s ops) :
    UniqES p (applyOps p s ops) :=
  (applyOps_pres p ops s hwf hids hSP hU htr).2.2.2

theorem C1_amended_uniqueness_witness :
    UniqES "linkedin" (applyOps "linkedin" c1TraceStore
      [QOp.redistribute, QOp.move [1] "top"]) :=
  C1_amended_uniqueness "linkedin" c1TraceStore [QOp.redistribute, QOp.move [1] "top"]
    (by decide) (by decide) (by decide) (by decide) ⟨trivial, trivial, trivial⟩

/-- C2 counterexample: the committed count `count_scheduled_posts_for_day`
counts only 'pending' rows, not 'pending'-plus-'posted': with one posted
LinkedIn row on Monday and daily limit 1, the committed count is 0 while
the pending+posted count is 1, the allocator still admits Monday 09:00,
and after the enqueue the pending+posted count on Monday is 2 > 1. -/
theorem C2_counterexample :
    count_scheduled_posts_for_day "linkedin" 4 cxPostedStore = 0 ∧
    pendingPlusPostedCount "linkedin" 4 cxPostedStore = 1 ∧
    get_daily_limit cxPostedStore "linkedin" = 1 ∧
    get_next_available_slot "linkedin" cxPostedStore =
      Except.ok (some (4 * 86400 + 9 * 3600)) ∧
    pendingPlusPostedCount "linkedin" 4
      (add_scheduled_post cxPostedStore 2 "linkedin" (4 * 86400 + 9 * 3600) 1) = 2 := by
  decide

/-- C2 amended: the allocator's committed count is the pending-only count
`count_scheduled_posts_for_day`; consequently, with a positive daily limit
N and all per-day pending counts at most N, the pending count of every
calendar day is still at most N immediately after a slot-allocating
enqueue. -/
theorem C2_amended_capacity (p : String) (s : Store) (N pid created c : Nat)
    (hwf : WFslots s) (hlim : get_daily_limit s p = N) (hN : 0 < N)
    (hcap : ∀ D ∈ s.posts.map (fun r => r.scheduled_for / 86400),
      count_scheduled_posts_for_day p D s ≤ N)
    (halloc : get_next_available_slot p s = Except.ok (some c)) :
    ∀ D, count_scheduled_posts_for_day p D (add_scheduled_post s pid p c created) ≤ N := by
  intro D
  have hsplit : count_scheduled_posts_for_day p D (add_scheduled_post s pid p c created) =
      count_scheduled_posts_for_day p D s + (if c / 86400 = D then 1 else 0) := by
    unfold count_scheduled_posts_for_day add_scheduled_post
    rw [List.filter_append, List.length_append]
    congr 1
    rw [List.filter_cons]
    by_cases hD : c / 86400 = D
    · simp [hD]
    · simp [hD]
  have hcapD : count_scheduled_posts_for_day p D s ≤ N := by
    by_cases hmem : D ∈ s.posts.map (fun r => r.scheduled_for / 86400)
    · exact hcap D hmem
    · have hzero : count_scheduled_posts_for_day p D s = 0 := by
        unfold count_scheduled_posts_for_day
        rw [List.length_eq_zero]
        apply List.filter_eq_nil_iff.mpr
        intro r hr
        simp only [decide_eq_true_eq, not_and]
        intro _ _ hd
        exact hmem (List.mem_map.mpr ⟨r, hr, hd⟩)
      omega
  rw [hsplit]
  by_cases hD : c / 86400 = D
  · have hlt := (alloc_some_props p s c hwf halloc).2.2 (by rw [hlim]; exact hN)
    rw [hD, hlim] at hlt
    rw [if_pos hD]
    omega
  · rw [if_neg hD]
    omega

theorem C2_amended_capacity_witness :
    count_scheduled_posts_for_day "linkedin" 4
      (add_scheduled_post c2Store 1 "linkedin" (4 * 86400 + 12 * 3600) 0) ≤ 2 :=
  C2_amended_capacity "linkedin" c2Store 2 1 0 (4 * 86400 + 12 * 3600)
    (by decide) (by decide) (by decide) (by decide) (by decide) 4

/-- C3: under range-valid slots, `get_next_available_slot` returns exactly
the first element of the legal-candidate list — days from today outward,
each day's enabled slots in day-of-week-then-time ascending order (the
registry order is sorted by that key), keeping candidates strictly after
now, conflict-free, and under the daily limit; in the concrete scenario
(slots 09:00/12:00/17:00 every day, no limit, empty queue, now Monday
10:00) it returns Monday 12:00. -/
theorem C3_first_legal_candidate :
    (∀ (p : String) (s : Store), WFslots s →
      get_next_available_slot p s = Except.ok ((legalCandidates p s).head?)) ∧
    (∀ s : Store, (get_enabled_time_slots s).Sorted slotKeyLE) ∧
    get_next_available_slot "linkedin" mondayStore =
      Except.ok (some (4 * 86400 + 12 * 3600)) := by
  refine ⟨fun p s hwf => alloc_ok_head p s hwf,
    fun s => List.sorted_insertionSort slotKeyLE _, ?_⟩
  decide

theorem C3_first_legal_candidate_witness :
    get_next_available_slot "linkedin" mondayStore =
      Except.ok ((legalCandidates "linkedin" mondayStore).head?) :=
  C3_first_legal_candidate.1 "linkedin" mondayStore (by decide)

/-- C4 counterexample: an enabled slot whose time parses as out-of-range
integers ('25:00') makes `get_next_available_slot` raise the uncaught
`ValueError` of `datetime.replace` instead of returning a value, so the
claim's 'returns None rather than raising' does not hold for every store
state. -/
theorem C4_counterexample :
    get_enabled_time_slots badSlotStore ≠ [] ∧
    get_next_available_slot "linkedin" badSlotStore = Except.error () := by decide

/-- C4 amended: when every enabled slot's parsed time is in range for
`datetime.replace`, the allocator never raises, and it returns None
exactly when the enabled-slot list is empty or no legal candidate exists
in the 30-day lookahead window. -/
theorem C4_amended_none_iff (p : String) (s : Store) (hwf : WFslots s) :
    (∃ v, get_next_available_slot p s = Except.ok v) ∧
    (get_next_available_slot p s = Except.ok none ↔
      get_enabled_time_slots s = [] ∨ legalCandidates p s = []) := by
  have hh := alloc_ok_head p s hwf
  constructor
  · exact ⟨_, hh⟩
  · rw [hh]
    constructor
    · intro h
      right
      have hhd : (legalCandidates p s).head? = none := Except.ok.inj h
      exact List.head?_eq_none_iff.mp hhd
    · intro h
      rcases h with h | h
      · have hnil : legalCandidates p s = [] := by
          rw [legalCandidates_eq_flatMap]
          apply List.flatMap_eq_nil_iff.mpr
          intro off _
          unfold dayLegal dayCandidates
          rw [h]
          rfl
        rw [hnil]
        rfl
      · rw [h]
        rfl

theorem C4_amended_none_iff_witness :
    (∃ v, get_next_available_slot "linkedin" mondayStore = Except.ok v) ∧
    (get_next_available_slot "linkedin" mondayStore = Except.ok none ↔
      get_enabled_time_slots mondayStore = [] ∨
        legalCandidates "linkedin" mondayStore = []) :=
  C4_amended_none_iff "linkedin" mondayStore (by decide)

/-- C5: `redistribute_scheduled_posts` never raises under range-valid
slots: it returns the number of pending rows reassigned to a real slot,
at most the pending count; exactly that many pending rows of the platform
end off the far-future sentinel, the rest stay parked on it, and the
returned count is less than the pending count precisely when some pending
row is left at the sentinel (partial redistribution is reported through
the count, not an exception). -/
theorem C5_redistribute_partial (p : String) (s : Store)
    (hwf : WFslots s) (hids : IdsNodup s) :
    (redistribute_scheduled_posts p s).isOk = true ∧
    redistribute_scheduled_posts p s =
      Except.ok (redistributeCount p s, redistributeStore p s) ∧
    redistributeCount p s ≤ (pendingTimes p s).length ∧
    offSentinel p (redistributeStore p s) = redistributeCount p s ∧
    onSentinel p (redistributeStore p s) =
      (pendingTimes p s).length - redistributeCount p s ∧
    (redistributeCount p s < (pendingTimes p s).length ↔
      farFuture ∈ pendingTimes p (redistributeStore p s)) := by
  obtain ⟨k, s', heq, hU, hI, hslots, hk, hoff, hon, hSP⟩ := redistribute_spec p s hwf hids
  have hcnt : redistributeCount p s = k := by
    unfold redistributeCount
    rw [heq]
    rfl
  have hstore : redistributeStore p s = s' := by
    unfold redistributeStore
    rw [heq]
    rfl
  have hiff : farFuture ∈ pendingTimes p s' ↔ 0 < onSentinel p s' := by
    unfold onSentinel
    rw [List.length_pos]
    constructor
    · intro hm
      intro hcon
      have : farFuture ∈ ((pendingTimes p s').filter (fun u => decide (u = farFuture))) :=
        List.mem_filter.mpr ⟨hm, by simp⟩
      rw [hcon] at this
      exact List.not_mem_nil farFuture this
    · intro hne
      obtain ⟨u, hu⟩ := List.exists_mem_of_ne_nil _ hne
      have hmf := List.mem_filter.mp hu
      have hu2 : u = farFuture := of_decide_eq_true hmf.2
      exact hu2 ▸ hmf.1
  refine ⟨?_, ?_, ?_, ?_, ?_, ?_⟩
  · rw [heq]
    rfl
  · rw [hcnt, hstore]
    exact heq
  · rw [hcnt]
    exact hk
  · rw [hcnt, hstore]
    exact hoff
  · rw [hcnt, hstore]
    exact hon
  · rw [hcnt, hstore]
    rw [hiff, hon]
    omega

theorem C5_redistribute_partial_witness :
    redistributeCount "linkedin" twoPendingNoSlots <
      (pendingTimes "linkedin" twoPendingNoSlots).length ∧
    farFuture ∈ pendingTimes "linkedin"
      (redistributeStore "linkedin" twoPendingNoSlots) := by
  have h := C5_redistribute_partial "linkedin" twoPendingNoSlots (by decide) (by decide)
  have hlt : redistributeCount "linkedin" twoPendingNoSlots <
      (pendingTimes "linkedin" twoPendingNoSlots).length := by decide
  exact ⟨hlt, h.2.2.2.2.2.mp hlt⟩

/-- C6: for at least two distinct ids of currently pending rows,
`reorder_scheduled_posts` keeps the multiset of `scheduled_for` values
over the selected rows unchanged and hands the i-th smallest of the
original timestamps to the i-th id in the caller-given order. -/
theorem C6_reorder_sorted_assignment (s : Store) (ids : List Nat)
    (hids : IdsNodup s) (hnd : ids.Nodup) (hlen2 : 2 ≤ ids.length)
    (hpend : ∀ id ∈ ids, isPendingId s id) :
    (selTimes ids ((reorder_scheduled_posts ids s).1)).Perm (selTimes ids s) ∧
    (∀ pr ∈ ids.zip (List.insertionSort (· ≤ ·) (selTimes ids s)),
      ∀ rf ∈ (reorder_scheduled_posts ids s).1.posts,
        rf.id = pr.1 → rf.scheduled_for = pr.2) := by
  unfold selTimes
  have hlen : ids.length = (List.insertionSort (· ≤ ·) ((s.posts.filter
      (fun r => decide (r.id ∈ ids ∧ r.status = Status.pending))).map
      (fun r => r.scheduled_for))).length := by
    rw [(List.perm_insertionSort _ _).length_eq, List.length_map]
    exact (rows_length_eq s ids hids hnd hpend).symm
  have hmain := reorder_main s ids hids hnd hlen2 hpend
  constructor
  · rw [hmain, assignTimes_posts ids _ s hnd, List.filter_map]
    have hfc : s.posts.filter ((fun r => decide (r.id ∈ ids ∧ r.status = Status.pending)) ∘
        reassign ids (List.insertionSort (· ≤ ·) ((s.posts.filter
          (fun r => decide (r.id ∈ ids ∧ r.status = Status.pending))).map
          (fun r => r.scheduled_for)))) =
        s.posts.filter (fun r => decide (r.id ∈ ids ∧ r.status = Status.pending)) := by
      apply List.filter_congr
      intro r _
      simp only [Function.comp_apply, reassign_id, reassign_status]
    rw [hfc, List.map_map]
    exact (map_sched_sel_perm s ids _ hids hnd hpend hlen).trans
      (List.perm_insertionSort _ _)
  · intro pr hpr rf hrf hid
    rw [hmain, assignTimes_posts ids _ s hnd] at hrf
    obtain ⟨r0, hr0, hr0e⟩ := List.mem_map.mp hrf
    have hpr1 : pr.1 ∈ ids := (List.of_mem_zip hpr).1
    obtain ⟨r1, hr1, hr1id, hr1p⟩ := hpend pr.1 hpr1
    have hr0id : r0.id = r1.id := by
      rw [hr1id, ← hid, ← hr0e, reassign_id]
    have hr01 : r0 = r1 := id_inj s hids r0 r1 hr0 hr1 hr0id
    have hr0p : r0.status = Status.pending := by
      rw [hr01]
      exact hr1p
    have hr0mem : r0.id ∈ ids := by
      rw [hr0id, hr1id]
      exact hpr1
    rw [← hr0e, reassign_sched_of_pending ids _ r0 hr0p hr0mem hlen]
    rw [show r0.id = pr.1 from by rw [hr0id, hr1id]]
    exact partnerVal_zip_mem ids _ hnd pr hpr

theorem C6_reorder_sorted_assignment_witness :
    (selTimes [3, 1, 2] ((reorder_scheduled_posts [3, 1, 2] reorderABCStore).1)).Perm
      (selTimes [3, 1, 2] reorderABCStore) ∧
    (⟨3, "linkedin", 100, Status.pending, 2, none⟩ : Post).scheduled_for = 100 := by
  have h := C6_reorder_sorted_assignment reorderABCStore [3, 1, 2]
    (by decide) (by decide) (by decide) (by decide)
  refine ⟨h.1, ?_⟩
  have hmem : (⟨3, "linkedin", 100, Status.pending, 2, none⟩ : Post) ∈
      (reorder_scheduled_posts [3, 1, 2] reorderABCStore).1.posts := by decide
  exact h.2 (3, 100) (by decide) _ hmem (by decide)

/-- C7: `move_posts_to_position(ids, 'top')` works over the system-wide
pending ladder (all platforms): it permutes the multiset of all pending
`scheduled_for` values, and afterwards every pending row whose id is in
`ids` sits at a timestamp no larger than every pending row outside
`ids`. -/
theorem C7_move_to_top (s : Store) (ids : List Nat) (hids : IdsNodup s) :
    ((allPendingTimes (move_posts_to_position ids "top" s).1).Perm (allPendingTimes s)) ∧
    (∀ r1 ∈ (move_posts_to_position ids "top" s).1.posts,
      ∀ r2 ∈ (move_posts_to_position ids "top" s).1.posts,
      r1.status = Status.pending → r2.status = Status.pending →
      r1.id ∈ ids → r2.id ∉ ids → r1.scheduled_for ≤ r2.scheduled_for) :=
  move_top_spec s ids hids

theorem C7_move_to_top_witness :
    (allPendingTimes (move_posts_to_position [2] "top" moveWStore).1).Perm
      (allPendingTimes moveWStore) :=
  (C7_move_to_top moveWStore [2] (by decide)).1

/-- C8: any due pending row of a worker tick ends with exactly the status
and error message its own publish outcome dictates — 'failed' plus the
provider error truncated to at most 500 characters on failure or raise —
independently of the outcomes of every other row in the same tick. -/
theorem C8_worker_failure_isolation (s : Store) (oracle : Nat → PubOutcome) (r rf : Post)
    (hr : r ∈ s.posts) (hp : r.status = Status.pending) (hdue : r.scheduled_for ≤ s.now)
    (hrf : rf ∈ (scheduled_post_worker_tick oracle s).posts) (hid : rf.id = r.id) :
    rf.status = outcomeStatus (oracle r.id) ∧
    rf.error_message = outcomeErr (oracle r.id) ∧
    errLength (outcomeErr (oracle r.id)) ≤ 500 ∧
    (isFailB (oracle r.id) = true → rf.status = Status.failed) := by
  obtain ⟨hst, herr⟩ := worker_row_status s oracle r rf hr hp hdue hrf hid
  refine ⟨hst, herr, ?_, ?_⟩
  · cases ho : oracle r.id with
    | success m => simp [outcomeErr, errLength]
    | failure e =>
      simp only [outcomeErr, errLength, Option.map_some', Option.getD_some]
      exact truncate500_le e
    | raised e =>
      simp only [outcomeErr, errLength, Option.map_some', Option.getD_some]
      exact truncate500_le e
  · intro hfail
    rw [hst]
    cases ho : oracle r.id with
    | success m =>
      rw [ho] at hfail
      simp [isFailB] at hfail
    | failure e => rfl
    | raised e => rfl

theorem C8_worker_failure_isolation_witness :
    workerFinalPost.status = outcomeStatus (workerOracle 1) ∧
    workerFinalPost.error_message = outcomeErr (workerOracle 1) ∧
    errLength (outcomeErr (workerOracle 1)) ≤ 500 ∧
    (isFailB (workerOracle 1) = true → workerFinalPost.status = Status.failed) :=
  C8_worker_failure_isolation workerStore workerOracle
    ⟨1, "linkedin", 100, Status.pending, 0, none⟩ workerFinalPost
    (by decide) (by decide) (by decide) (by decide) (by decide)

/-- C9: `reorder_scheduled_posts` and `move_posts_to_position` return True
on every input; on the early-return inputs (short id list, fewer than two
matching pending rows, empty selection, fewer than two pending rows
system-wide, no selected pending row) the store is left entirely
unchanged. -/
theorem C9_reorder_move_total (ids : List Nat) (position : String) (s : Store) :
    (reorder_scheduled_posts ids s).2 = true ∧
    (move_posts_to_position ids position s).2 = true ∧
    (ids.length < 2 → (reorder_scheduled_posts ids s).1 = s) ∧
    ((s.posts.filter (fun r => decide (r.id ∈ ids ∧ r.status = Status.pending))).length < 2 →
      (reorder_scheduled_posts ids s).1 = s) ∧
    (ids.isEmpty = true → (move_posts_to_position ids position s).1 = s) ∧
    ((List.insertionSort schedLE (s.posts.filter
        (fun r => decide (r.status = Status.pending)))).length < 2 →
      (move_posts_to_position ids position s).1 = s) ∧
    (((List.insertionSort schedLE (s.posts.filter
        (fun r => decide (r.status = Status.pending)))).filter
        (fun r => decide (r.id ∈ ids))).isEmpty = true →
      (move_posts_to_position ids position s).1 = s) :=
  ⟨reorder_snd ids s, move_snd ids position s,
    fun h => reorder_unchanged_short ids s h,
    fun h => reorder_unchanged_rows ids s h,
    fun h => move_unchanged_empty ids position s h,
    fun h => move_unchanged_short ids position s h,
    fun h => move_unchanged_nosel ids position s h⟩

theorem C9_reorder_move_total_witness :
    (reorder_scheduled_posts [] twoPendingNoSlots).2 = true ∧
    (move_posts_to_position [] "top" twoPendingNoSlots).2 = true ∧
    (reorder_scheduled_posts [] twoPendingNoSlots).1 = twoPendingNoSlots ∧
    (move_posts_to_position [] "top" twoPendingNoSlots).1 = twoPendingNoSlots := by
  have h := C9_reorder_move_total [] "top" twoPendingNoSlots
  exact ⟨h.1, h.2.1, h.2.2.1 (by decide), h.2.2.2.2.1 (by decide)⟩

/-- C10: an enabled slot whose time string does not parse as two
colon-separated integers is transparent to `get_next_available_slot`:
removing it from the slot table does not change the result, so it is
never the source of a candidate and never makes the allocator fail. -/
theorem C10_malformed_slot_skipped (s : Store) (p : String) (l1 l2 : List TimeSlot)
    (bad : TimeSlot) (hbad : parseTimeSlot bad.time_slot = none) :
    get_next_available_slot p { s with slots := l1 ++ bad :: l2 } =
      get_next_available_slot p { s with slots := l1 ++ l2 } :=
  gnas_unparseable_irrel s p l1 l2 bad hbad

theorem C10_malformed_slot_skipped_witness :
    get_next_available_slot "linkedin"
      { mondayStore with slots := [] ++ (⟨9, -1, "oops", true⟩ : TimeSlot) :: slotsDefault } =
      get_next_available_slot "linkedin" { mondayStore with slots := [] ++ slotsDefault } :=
  C10_malformed_slot_skipped mondayStore "linkedin" [] slotsDefault
    ⟨9, -1, "oops", true⟩ (by decide)

end PodInsights

